import Mathlib

/-!
# Lens Execution Environment — verification development

Shallow embedding of the lens execution pipeline of
`src/executor.ts` and `src/lens-worker.js` (Gravitate-Health
Lens-Execution-Environment), together with proofs about the embedded
definitions.

Modelling conventions:

* JavaScript values are modelled by the structural shapes the code actually
  inspects; absent/`undefined`/`null` fields are `Option`s.
* The HTML/markup strings threaded through the pipeline (`text.div` contents,
  the flattened leaflet string, the worker result) are modelled in parsed
  form: an `Html` value is the list of DOM nodes a string parses to.
  Concatenation of markup strings is list append, JSDOM parsing of a
  concatenation of serialized nodes is the identity, and `div.outerHTML`
  is the singleton list of that node.
* `Buffer.from(·, 'base64').toString('utf-8')` and the worker-thread
  execution of untrusted lens code are external effects; the pipeline
  definitions take them as explicit function parameters (`dec`, `exec`).
* Exceptions are modelled with `Except String`; a thrown `TypeError`
  (property access on `null`) becomes an `Except.error`.
-/

namespace LEE

/-- A parsed HTML node (model of the markup strings of `executor.ts`). -/
inductive HtmlNode : Type where
  | text (s : String)
  | elem (tag : String) (attrs : List (String × String)) (children : List HtmlNode)

/-- An HTML fragment: the parse of a markup string. -/
abbrev Html := List HtmlNode

/-- The namespace attribute value that marks leaflet section containers
    (`executor.ts`, `getLeafletSectionListFromHTMLString`). -/
def xhtmlNs : String := "http://www.w3.org/1999/xhtml"

/-- DOM attribute lookup (first binding wins, as in a parsed DOM). -/
def getAttr (attrs : List (String × String)) (k : String) : Option String :=
  (attrs.find? (fun p => p.1 == k)).map (fun p => p.2)

/-- Does a node match the CSS selector `div[xmlns="http://www.w3.org/1999/xhtml"]`? -/
def isMarkedDiv : HtmlNode → Bool
  | .text _ => false
  | .elem t a _ => t == "div" && getAttr a "xmlns" == some xhtmlNs

mutual
/-- All descendants-or-self of one node matching the marked-div selector,
    in document (pre)order — the per-node part of `querySelectorAll`. -/
def nodeDivs : HtmlNode → List HtmlNode
  | .text _ => []
  | .elem t a c =>
    (if isMarkedDiv (.elem t a c) then [HtmlNode.elem t a c] else []) ++ collectDivs c

/-- `document.querySelectorAll('div[xmlns="http://www.w3.org/1999/xhtml"]')`
    over a parsed fragment, in document order. -/
def collectDivs : List HtmlNode → List HtmlNode
  | [] => []
  | n :: rest => nodeDivs n ++ collectDivs rest
end

mutual
/-- `textContent` of a node list: concatenation of all text descendants. -/
def textContentList : List HtmlNode → String
  | [] => ""
  | n :: rest => nodeTextContent n ++ textContentList rest

/-- `textContent` of a single node. -/
def nodeTextContent : HtmlNode → String
  | .text s => s
  | .elem _ _ c => textContentList c
end

/-- The heading tags of the selector `'h1, h2, h3, h4, h5, h6'`. -/
def headingTags : List String := ["h1", "h2", "h3", "h4", "h5", "h6"]

mutual
/-- The per-node part of `querySelector('h1, h2, h3, h4, h5, h6')`:
    first matching descendant-or-self in document order. -/
def nodeFirstHeading : HtmlNode → Option HtmlNode
  | .text _ => none
  | .elem t a c =>
    if headingTags.contains t then some (.elem t a c) else findFirstHeading c

/-- `querySelector('h1, h2, h3, h4, h5, h6')` over a node list. -/
def findFirstHeading : List HtmlNode → Option HtmlNode
  | [] => none
  | n :: rest =>
    match nodeFirstHeading n with
    | some h => some h
    | none => findFirstHeading rest
end

/-- The children of a node (where `querySelector` searches from an element). -/
def nodeChildren : HtmlNode → List HtmlNode
  | .text _ => []
  | .elem _ _ c => c

/-- FHIR `Narrative` (`text` of a section): `status` and `div`.
    The `div` markup string is kept in parsed form. -/
structure Narrative where
  status : Option String
  div : Option Html

/-- FHIR `Coding`. -/
structure Coding where
  system : Option String
  code : Option String
  display : Option String
deriving DecidableEq

/-- FHIR `CodeableConcept` as used for section classification codes. -/
structure SectionCode where
  coding : Option (List Coding)
deriving DecidableEq

mutual
/-- A Composition section (`FHIRSection` of `types.ts`): `title`, `code`,
    `text`, nested sections and entries.  The nested-section field is called
    `section` in the source; it is named `sub` here because `section` is a
    Lean keyword. -/
inductive Section : Type where
  | mk (title : Option String) (code : Option SectionCode) (text : Option Narrative)
       (sub : Option (List Section)) (entry : Option (List SectionEntry))

/-- A section `entry` element (`{ resource: ... }`). -/
inductive SectionEntry : Type where
  | mk (resource : Option SectionResource)

/-- The embedded resource of a section entry, as far as
    `getLeafletHTMLString` reads it (`resource.text.div`, `resource.section`). -/
inductive SectionResource : Type where
  | mk (text : Option Narrative) (sub : Option (List Section))
end

def Section.title : Section → Option String
  | ⟨t, _, _, _, _⟩ => t

def Section.code : Section → Option SectionCode
  | ⟨_, c, _, _, _⟩ => c

def Section.text : Section → Option Narrative
  | ⟨_, _, t, _, _⟩ => t

def Section.sub : Section → Option (List Section)
  | ⟨_, _, _, s, _⟩ => s

def Section.entry : Section → Option (List SectionEntry)
  | ⟨_, _, _, _, e⟩ => e

/-- Replace the nested-section field (`section`) of a section. -/
def Section.withSub : Section → Option (List Section) → Section
  | ⟨t, c, x, _, e⟩, s => ⟨t, c, x, s, e⟩

mutual
/-- `getLeafletHTMLString` (`executor.ts`): depth-first concatenation of every
    section's `text.div`, recursing into nested sections and into entry
    resources' `text.div`/`section`, in document order. -/
def getLeafletHTMLString : List Section → Html
  | [] => []
  | s :: rest => sectionHTML s ++ getLeafletHTMLString rest

/-- The markup contributed by one section in `getLeafletHTMLString`. -/
def sectionHTML : Section → Html
  | ⟨_, _, t, sub, entry⟩ =>
    (match t with
     | some n => (match n.div with | some d => d | none => [])
     | none => []) ++
    (match sub with | some l => getLeafletHTMLString l | none => []) ++
    (match entry with | some es => entriesHTML es | none => [])

/-- The markup contributed by a section's `entry` list. -/
def entriesHTML : List SectionEntry → Html
  | [] => []
  | ⟨r⟩ :: rest =>
    (match r with
     | some ⟨t, sub⟩ =>
       (match t with
        | some n => (match n.div with | some d => d | none => [])
        | none => []) ++
       (match sub with | some l => getLeafletHTMLString l | none => [])
     | none => []) ++ entriesHTML rest
end

/-- The synthesized classification code for block `i` (0-based) when the
    previous sections provide none. -/
def synthCode (i : Nat) (title : String) : SectionCode :=
  { coding := some [{ system := some "http://hl7.org/fhir/CodeSystem/section-code",
                      code := some ("section-" ++ toString (i + 1)),
                      display := some title }] }

/-- Fallback title for block `i`:
    `div.querySelector('h1, h2, h3, h4, h5, h6')?.textContent || ("Section " + (i+1))`. -/
def divSectionTitle (d : HtmlNode) (i : Nat) : String :=
  match findFirstHeading (nodeChildren d) with
  | some h =>
    let s := nodeTextContent h
    if s == "" then "Section " ++ toString (i + 1) else s
  | none => "Section " ++ toString (i + 1)

/-- The loop body of `getLeafletSectionListFromHTMLString`: one new section per
    marked div, title and code taken positionally from the previous section
    list when present, otherwise synthesized.  (`div == undefined` can never
    hold for an element of the query result, so the `continue` branch of the
    source is unreachable and not modelled.) -/
def buildSectionsFromDivs (prev : List Section) : List HtmlNode → Nat → List Section
  | [], _ => []
  | d :: ds, i =>
    let sectionTitle : String :=
      match (prev.get? i).bind Section.title with
      | some t => t
      | none => divSectionTitle d i
    let sectionCode : SectionCode :=
      match (prev.get? i).bind Section.code with
      | some c => c
      | none => synthCode i sectionTitle
    Section.mk (some sectionTitle) (some sectionCode)
      (some { status := some "additional", div := some [d] }) none none
      :: buildSectionsFromDivs prev ds (i + 1)

/-- `getLeafletSectionListFromHTMLString` (`executor.ts`): parse the markup,
    take every div carrying the xhtml namespace attribute in document order,
    and rebuild one section per div. -/
def getLeafletSectionListFromHTMLString (html : Html) (leafletSectionList : List Section) :
    List Section :=
  buildSectionsFromDivs leafletSectionList (collectDivs html) 0

/-- A JavaScript primitive value as far as the executor inspects it: either a
    string, or some non-string value carried together with its `String(·)`
    image (used when the value is interpolated into a message). -/
inductive JPrim : Type where
  | str (s : String)
  | nonStr (stringified : String)
deriving DecidableEq

/-- The JS value read at `defaultExplanation[validLanguage]` and stored in the
    extension's `valueString` slot: a string, or — when the prototype-chain
    lookup performed by the `in` operator admitted an inherited property
    name — the inherited `Object.prototype` member itself (a function, or the
    prototype object for `__proto__`), identified by its property name. -/
inductive ExplanationValue : Type where
  | str (s : String)
  | inherited (propName : String)
deriving DecidableEq

/-- The sub-extension triple pushed by `applyLenses` on a successful lens
    application (url `.../StructureDefinition/LensesApplied`). -/
structure LensesAppliedExt where
  lens : String
  elementClass : String
  explanation : ExplanationValue
deriving DecidableEq

/-- An element of a Composition's `extension` array: either a LensesApplied
    record pushed by this pipeline, or any pre-existing extension (kept
    abstract). -/
inductive Ext : Type where
  | lensesApplied (e : LensesAppliedExt)
  | otherExt (payload : String)
deriving DecidableEq

/-- The LensesApplied extension object pushed by `applyLenses`. -/
def mkLensesAppliedExt (lensIdentifier : String) (explanationText : ExplanationValue) : Ext :=
  .lensesApplied
    { lens := "Library/" ++ lensIdentifier
      elementClass := lensIdentifier
      explanation := explanationText }

/-- A category element (`composition.category[i]`). -/
structure CatCC where
  coding : Option (List Coding)
deriving DecidableEq

/-- A FHIR resource as far as `executor.ts` reads it: `resourceType`, bundle
    `entry` (each entry's `resource`, `none` when the entry has no resource),
    and the Composition fields `section`, `category`, `language`, `extension`.
    The `section`/`extension` fields are named `sectionL`/`extensionL`
    (`section` is a Lean keyword). -/
inductive FRes : Type where
  | mk (resourceType : String)
       (entry : Option (List (Option FRes)))
       (sectionL : Option (List Section))
       (category : Option (List CatCC))
       (language : Option String)
       (extensionL : Option (List Ext))

def FRes.resourceType : FRes → String
  | ⟨t, _, _, _, _, _⟩ => t

def FRes.entry : FRes → Option (List (Option FRes))
  | ⟨_, e, _, _, _, _⟩ => e

def FRes.sectionL : FRes → Option (List Section)
  | ⟨_, _, s, _, _, _⟩ => s

def FRes.category : FRes → Option (List CatCC)
  | ⟨_, _, _, c, _, _⟩ => c

def FRes.language : FRes → Option String
  | ⟨_, _, _, _, l, _⟩ => l

def FRes.extensionL : FRes → Option (List Ext)
  | ⟨_, _, _, _, _, x⟩ => x

def FRes.withEntry : FRes → Option (List (Option FRes)) → FRes
  | ⟨t, _, s, c, l, x⟩, e => ⟨t, e, s, c, l, x⟩

def FRes.withSectionL : FRes → Option (List Section) → FRes
  | ⟨t, e, _, c, l, x⟩, s => ⟨t, e, s, c, l, x⟩

def FRes.withCategory : FRes → Option (List CatCC) → FRes
  | ⟨t, e, s, _, l, x⟩, c => ⟨t, e, s, c, l, x⟩

def FRes.withExtensionL : FRes → Option (List Ext) → FRes
  | ⟨t, e, s, c, l, _⟩, x => ⟨t, e, s, c, l, x⟩

/-- The entry predicate of `findResourceByType` on bundles:
    `e.resource && e.resource.resourceType === resourceType`. -/
def entryHasType (resourceType : String) (e : Option FRes) : Bool :=
  match e with
  | some x => x.resourceType == resourceType
  | none => false

/-- `findResourceByType` (`executor.ts`): the resource itself when its type
    matches, else the first matching entry resource of a Bundle, else null. -/
def findResourceByType (resource : Option FRes) (resourceType : String) : Option FRes :=
  match resource with
  | none => none
  | some r =>
    if r.resourceType == resourceType then some r
    else if r.resourceType == "Bundle" then
      match r.entry with
      | some entries =>
        match entries.find? (entryHasType resourceType) with
        | some e => e
        | none => none
      | none => none
    else none

/-- Apply `f` to the first entry resource of the given type (model of the
    in-place mutation of the resource that `findResourceByType` returned). -/
def updateFirstMatching (resourceType : String) (f : FRes → FRes) :
    List (Option FRes) → List (Option FRes)
  | [] => []
  | e :: rest =>
    match e with
    | some x =>
      if x.resourceType == resourceType then some (f x) :: rest
      else e :: updateFirstMatching resourceType f rest
    | none => e :: updateFirstMatching resourceType f rest

/-- Functional counterpart of mutating the resource found by
    `findResourceByType`: rewrite it in place inside the document. -/
def updateFirstResourceByType (resource : Option FRes) (resourceType : String)
    (f : FRes → FRes) : Option FRes :=
  match resource with
  | none => none
  | some r =>
    if r.resourceType == resourceType then some (f r)
    else if r.resourceType == "Bundle" then
      match r.entry with
      | some entries => some (r.withEntry (some (updateFirstMatching resourceType f entries)))
      | none => some r
    else some r

/-- A content attachment of a lens Library resource (`Attachment`):
    `contentType`, inline `data`, `url`. -/
structure LensAttachment where
  contentType : Option String
  data : Option JPrim
  url : Option JPrim
deriving DecidableEq

/-- The `content` field of a lens: absent/null, an array of attachments, or —
    tolerated non-standard shape — a single attachment object. -/
inductive LensContentField : Type where
  | absent
  | arr (items : List LensAttachment)
  | obj (att : LensAttachment)
deriving DecidableEq

/-- A `Library.identifier` element. -/
structure LensIdentifier where
  value : Option String
deriving DecidableEq

/-- A lens Library resource as far as the executor reads it: `name`
    (read by `getLensIdenfier`), `identifier`/`id` (documented fallbacks),
    `content`, and top-level `data`. -/
structure LensDef where
  name : Option JPrim
  identifier : Option (List LensIdentifier)
  id : Option String
  content : LensContentField
  data : Option JPrim
deriving DecidableEq

/-- `getLensIdenfier` (`executor.ts`): returns `lens["name"]`; an access on a
    null lens throws, is caught, and yields null.  (Both `undefined` and
    `null` results are modelled as `none`.) -/
def getLensIdenfier (lens : Option LensDef) : Option JPrim :=
  match lens with
  | none => none
  | some l => l.name

/-- `getLeaflet` (`executor.ts`): sections of the first composition section
    that itself has a `section` array; otherwise
    `composition.section[0]?.section || null`. -/
def getLeaflet (epi : Option FRes) : Option (List Section) :=
  match findResourceByType epi "Composition" with
  | none => none
  | some c =>
    match c.sectionL with
    | none => none
    | some secs =>
      match secs.find? (fun s => s.sub.isSome) with
      | some leafletSection => leafletSection.sub
      | none =>
        match secs with
        | [] => none
        | s0 :: _ => s0.sub

/-- The mutation `setCategoryCode` performs on the found composition:
    materialize `category[0].coding[0]` (pushing `{coding: []}` and `{}` where
    absent or empty) and set its `code`/`display`.  The three cases below are
    the source's materializations composed with the final assignment: absent
    or empty category, first category with absent or empty coding, and a
    populated `coding[0]` whose `code`/`display` are overwritten in place. -/
def setCategoryOnComposition (code display : String) (c : FRes) : FRes :=
  match (match c.category with | some l => l | none => []) with
  | [] =>
    c.withCategory (some
      [({ coding := some
            [({ system := none, code := some code, display := some display } : Coding)] } : CatCC)])
  | c0 :: crest =>
    match (match c0.coding with | some l => l | none => []) with
    | [] =>
      c.withCategory (some
        (({ coding := some
              [({ system := none, code := some code, display := some display } : Coding)] } : CatCC)
          :: crest))
    | d0 :: drest =>
      c.withCategory (some
        (({ coding := some
              (({ d0 with code := some code, display := some display } : Coding)
                :: drest) } : CatCC) :: crest))

/-- `setCategoryCode` (`executor.ts`): dereferences the composition without a
    null check — a document without a composition-like root makes the call
    throw a `TypeError`. -/
def setCategoryCode (epi : Option FRes) (code display : String) : Except String (Option FRes) :=
  match findResourceByType epi "Composition" with
  | none => .error "TypeError: Cannot read properties of null (reading category)"
  | some _ =>
    .ok (updateFirstResourceByType epi "Composition" (setCategoryOnComposition code display))

/-- `getlanguage` (`executor.ts`): `composition.language || null`; throws when
    the composition is absent. -/
def getlanguage (epi : Option FRes) : Except String (Option String) :=
  match findResourceByType epi "Composition" with
  | none => .error "TypeError: Cannot read properties of null (reading language)"
  | some c =>
    .ok (match c.language with
         | some "" => none
         | x => x)

/-- `getExtensions` (`executor.ts`): `composition.extension || []`; throws when
    the composition is absent. -/
def getExtensions (epi : Option FRes) : Except String (List Ext) :=
  match findResourceByType epi "Composition" with
  | none => .error "TypeError: Cannot read properties of null (reading extension)"
  | some c => .ok (match c.extensionL with | some l => l | none => [])

/-- `setExtensions` (`executor.ts`): `composition.extension = extensions`;
    throws when the composition is absent. -/
def setExtensions (epi : Option FRes) (extensions : List Ext) : Except String (Option FRes) :=
  match findResourceByType epi "Composition" with
  | none => .error "TypeError: Cannot set properties of null (setting extension)"
  | some _ =>
    .ok (updateFirstResourceByType epi "Composition" (fun c => c.withExtensionL (some extensions)))

/-- Write `L` as the nested-section list of the section at index `i`. -/
def setSubAt : List Section → Nat → Option (List Section) → List Section
  | [], _, _ => []
  | s :: rest, 0, L => s.withSub L :: rest
  | s :: rest, Nat.succ n, L => s :: setSubAt rest n L

/-- The mutation `writeLeaflet` performs on the found composition: write the
    leaflet back where `getLeaflet` read it (same fallback rule). -/
def writeLeafletOnComposition (L : Option (List Section)) (c : FRes) : FRes :=
  match c.sectionL with
  | none => c
  | some secs =>
    match secs.findIdx? (fun s => s.sub.isSome) with
    | some i => c.withSectionL (some (setSubAt secs i L))
    | none =>
      match secs with
      | [] => c
      | s0 :: rest => c.withSectionL (some (s0.withSub L :: rest))

/-- `writeLeaflet` (`executor.ts`): total — logs and returns the document
    unchanged when the composition or its sections are missing. -/
def writeLeaflet (epi : Option FRes) (leafletSectionList : Option (List Section)) :
    Option FRes :=
  match findResourceByType epi "Composition" with
  | none => epi
  | some _ => updateFirstResourceByType epi "Composition" (writeLeafletOnComposition leafletSectionList)

/-- First index at which `pat` occurs in a character list
    (JS `String.prototype.indexOf`, result `none` for `-1`). -/
def subIdx (pat : List Char) : List Char → Option Nat
  | [] => if pat.isEmpty then some 0 else none
  | c :: cs =>
    if pat.isPrefixOf (c :: cs) then some 0
    else (subIdx pat cs).map (· + 1)

/-- `typeof c?.data === 'string' && c.data.length > 0` — the predicate of the
    first extractor strategy of `extractLensBase64Data`. -/
def isNonEmptyStrData (a : LensAttachment) : Bool :=
  match a.data with
  | some (.str s) => s.length > 0
  | _ => false

/-- `typeof c?.url === 'string' && c.url.startsWith('data:')` — the predicate
    of the data-URL strategy. -/
def isDataUrl (a : LensAttachment) : Bool :=
  match a.url with
  | some (.str u) => "data:".data.isPrefixOf u.data
  | _ => false

/-- The tolerated non-array shape tried last by `extractLensBase64Data`:
    `lens.content` as a single object with a string `data` field. -/
def extractContentObj (l : LensDef) : Option String :=
  match l.content with
  | .obj att =>
    match att.data with
    | some (.str s) => some s
    | _ => none
  | _ => none

/-- The tail of `extractLensBase64Data` reached when the content-array
    strategies found nothing: direct `Library.data`, then content-as-object. -/
def extractTail (l : LensDef) : Option String :=
  match l.data with
  | some (.str s) => if s.length > 0 then some s else extractContentObj l
  | _ => extractContentObj l

/-- `extractLensBase64Data` (`executor.ts`): (1) first content-array attachment
    with non-empty inline string data; (2) first content-array attachment with
    a `data:` URL, taking what follows its first `'base64,'` segment;
    (3) non-empty top-level `Library.data`; (4) content as a single object
    with a string `data` field; otherwise null.  Never throws. -/
def extractLensBase64Data (lens : Option LensDef) : Option String :=
  match lens with
  | none => none
  | some l =>
    match l.content with
    | .arr items =>
      if items.length > 0 then
        match items.find? isNonEmptyStrData with
        | some withData =>
          (match withData.data with
           | some (.str s) => some s
           | _ => none)
        | none =>
          match items.find? isDataUrl with
          | some withDataUrl =>
            (match withDataUrl.url with
             | some (.str u) =>
               match subIdx "base64,".data u.data with
               | some idx => some (String.mk (u.data.drop (idx + "base64,".length)))
               | none => extractTail l
             | _ => extractTail l)
          | none => extractTail l
      else extractTail l
    | _ => extractTail l

/-- Modelled from the spec: payload searched in priority order — (1) first
    content-array attachment with inline encoded data, (2) a content
    attachment whose url is a data-URL with a `'base64,'` segment, (3) a
    direct top-level encoded field — and null when none is found.  This is
    the three-strategy decoder the specification describes; it is compared
    against `extractLensBase64Data`, the decoder the code implements. -/
def extractLensBase64DataSpec (lens : Option LensDef) : Option String :=
  match lens with
  | none => none
  | some l =>
    match l.content with
    | .arr items =>
      if items.length > 0 then
        match items.find? isNonEmptyStrData with
        | some withData =>
          (match withData.data with
           | some (.str s) => some s
           | _ => none)
        | none =>
          match items.find? isDataUrl with
          | some withDataUrl =>
            (match withDataUrl.url with
             | some (.str u) =>
               match subIdx "base64,".data u.data with
               | some idx => some (String.mk (u.data.drop (idx + "base64,".length)))
               | none => extractDataFieldSpec l
             | _ => extractDataFieldSpec l)
          | none => extractDataFieldSpec l
      else extractDataFieldSpec l
    | _ => extractDataFieldSpec l
where
  extractDataFieldSpec (l : LensDef) : Option String :=
    match l.data with
    | some (.str s) => if s.length > 0 then some s else none
    | _ => none

/-- The language keys of the `defaultExplanation` record (`executor.ts`). -/
def supportedLanguages : List String := ["en", "es", "pt", "da"]

/-- The own property names of `Object.prototype` (Node's ordinary object
    prototype), which the JS `in` operator also finds, through the prototype
    chain, when its left operand is not an own key of the record. -/
def objectPrototypeKeys : List String :=
  ["constructor", "hasOwnProperty", "isPrototypeOf", "propertyIsEnumerable",
   "toLocaleString", "toString", "valueOf", "__proto__",
   "__defineGetter__", "__defineSetter__", "__lookupGetter__", "__lookupSetter__"]

/-- The `defaultExplanation` record (`executor.ts`), as a function of one of
    its four own keys (the wildcard line is never consulted: the lookup is
    guarded so that an inherited prototype property name goes through
    `defaultExplanationValue` instead). -/
def defaultExplanation : String → String
  | "es" => "Esta sección fue resaltada porque es relevante para su salud."
  | "pt" => "Esta seção foi destacada porque é relevante para a sua saúde."
  | "da" => "Denne sektion blev fremhævet, fordi den er relevant for din sundhed."
  | _ => "This section was highlighted because it is relevant to your health."

/-- `(epiLanguage as string) in defaultExplanation ? epiLanguage : "en"`
    (`applyLenses`): the `in` operator finds the record's four own keys and,
    through the prototype chain, every property of `Object.prototype`, so a
    language naming an inherited property is kept rather than replaced by
    `"en"`. -/
def validLanguage (epiLanguage : Option String) : String :=
  match epiLanguage with
  | some l =>
    if supportedLanguages.contains l || objectPrototypeKeys.contains l then l else "en"
  | none => "en"

/-- String interpolation of the raw lens identifier into the extension
    (`"Library/" + lensIdentifier`): `undefined` prints as "undefined". -/
def jsStringOfIdentifier : Option JPrim → String
  | none => "undefined"
  | some (.str s) => s
  | some (.nonStr r) => r

/-- The lookup `defaultExplanation[validLanguage]`: one of the four default
    strings at an own key, and the inherited `Object.prototype` member at a
    prototype property name admitted by the `in` check (the image of
    `validLanguage` contains nothing else). -/
def defaultExplanationValue (l : String) : ExplanationValue :=
  if objectPrototypeKeys.contains l then .inherited l else .str (defaultExplanation l)

/-- `explanationText = lensApplication.explanation || defaultExplanation[validLanguage]`. -/
def explanationValueOf (explanation : String) (epiLanguage : Option String) :
    ExplanationValue :=
  if explanation == "" then defaultExplanationValue (validLanguage epiLanguage)
  else .str explanation

/-- The guard `explanationText != undefined && explanationText != ""`
    (`applyLenses`): a string passes iff it is non-empty; an inherited
    `Object.prototype` member is a function or an object, and its loose
    comparison with `""` coerces it to a non-empty primitive, so it always
    passes. -/
def explanationNonEmpty : ExplanationValue → Bool
  | .str s => s != ""
  | .inherited _ => true

/-! ## The lens worker (`lens-worker.js`) -/

/-- What `enhance()` settles to inside the worker: a string (modelled parsed)
    or a non-string value together with its `typeof` name. -/
inductive EnhanceRet : Type where
  | str (h : Html)
  | nonStr (typeName : String)

/-- What `explanation()` settles to: `undefined`/`null` (mapped to `""`), or
    any other value together with its `String(·)` image. -/
inductive ExplRet : Type where
  | nullish
  | value (stringified : String)

/-- The observable behaviour of the compiled lens function: it returns a
    non-object (with its `typeof` name), or an object whose `enhance` /
    `explanation` members are functions whose invocation either settles to a
    value or throws/rejects (`Except.error` carries the error message).
    `none` for a member means it is not a function. -/
inductive LensReturn : Type where
  | nonObject (typeName : String)
  | object (enhance : Option (Except String EnhanceRet))
           (explanation : Option (Except String ExplRet))

/-- The successful worker result `{ enhancedHtml, explanation }`. -/
structure WorkerRes where
  enhancedHtml : Html
  explanation : String

/-- `lens-worker.js`: given the outcome of compiling and invoking the lens
    source (`new Function(...)` plus its call — `Except.error` when either
    throws), the message the worker posts: `{success: true, result}` or
    `{success: false, error}`.  Note that a failure of `explanation()` rejects
    the promise chain and is posted as a failure. -/
def lensWorker (run : Except String LensReturn) : Except String WorkerRes :=
  match run with
  | .error e => .error e
  | .ok (.nonObject typeName) =>
    .error ("Lens function must return an object, received: " ++ typeName)
  | .ok (.object none _) => .error "Lens must provide an enhance() function"
  | .ok (.object (some (.error e)) _) => .error e
  | .ok (.object (some (.ok (.nonStr typeName))) _) =>
    .error ("enhance() must return a string, received: " ++ typeName)
  | .ok (.object (some (.ok (.str h))) explanation) =>
    match explanation with
    | none => .ok ⟨h, ""⟩
    | some (.error e) => .error e
    | some (.ok .nullish) => .ok ⟨h, ""⟩
    | some (.ok (.value s)) => .ok ⟨h, s⟩

/-- Modelled from the spec (and from the execution model documented in
    `.github/copilot-instructions.md`, which wraps the `explanation()` call in
    `try { ... } catch { /* Explanation is optional, ignore errors */ }`):
    identical to `lensWorker` except that a failure of `explanation()` alone
    is swallowed and the explanation defaults to the empty string. -/
def lensWorkerSpec (run : Except String LensReturn) : Except String WorkerRes :=
  match run with
  | .error e => .error e
  | .ok (.nonObject typeName) =>
    .error ("Lens function must return an object, received: " ++ typeName)
  | .ok (.object none _) => .error "Lens must provide an enhance() function"
  | .ok (.object (some (.error e)) _) => .error e
  | .ok (.object (some (.ok (.nonStr typeName))) _) =>
    .error ("enhance() must return a string, received: " ++ typeName)
  | .ok (.object (some (.ok (.str h))) explanation) =>
    match explanation with
    | none => .ok ⟨h, ""⟩
    | some (.error _) => .ok ⟨h, ""⟩
    | some (.ok .nullish) => .ok ⟨h, ""⟩
    | some (.ok (.value s)) => .ok ⟨h, s⟩

/-- Modelled from the spec (and from `getLensIdentifier` as documented in
    `.github/copilot-instructions.md` and expected by `executor.test.ts`):
    `lens.identifier?.[0]?.value || lens.id || 'unknown-lens'`. -/
def getLensIdentifierSpec (lens : LensDef) : String :=
  match lens.identifier with
  | some (idf0 :: _) =>
    (match idf0.value with
     | some v => if v == "" then fallbackId lens else v
     | none => fallbackId lens)
  | _ => fallbackId lens
where
  fallbackId (lens : LensDef) : String :=
    match lens.id with
    | some v => if v == "" then "unknown-lens" else v
    | none => "unknown-lens"

/-! ## The orchestrator (`applyLenses` and `applyLensToSections`) -/

/-- `FocusingError` (`types.ts`). -/
structure FocusingError where
  message : String
  lensName : String
deriving DecidableEq

/-- The effective execution configuration (`Required<LensExecutionConfig>`,
    logging options omitted — they only affect log sinks). -/
structure LensExecutionConfig where
  lensExecutionTimeout : Nat
deriving DecidableEq

/-- `getDefaultConfig` (`executor.ts`): 1000 ms. -/
def getDefaultConfig : LensExecutionConfig :=
  { lensExecutionTimeout := 1000 }

/-- The isolated execution of decoded lens source
    (`executeLensInWorker`): an external effect, taken as a parameter of the
    pipeline.  Arguments: lens code, ePI, IPS, flattened markup, timeout. -/
abbrev ExecOracle :=
  String → Option FRes → Option FRes → Html → Nat → Except String WorkerRes

/-- The base64 decoding `Buffer.from(·, 'base64').toString('utf-8')`,
    taken as a parameter of the pipeline. -/
abbrev DecodeFn := String → String

/-- `String.prototype.trim()`: strip whitespace from both ends (modelled over
    the character list so that it evaluates by reduction). -/
def jsTrim (s : String) : String :=
  String.mk (((s.data.dropWhile Char.isWhitespace).reverse.dropWhile Char.isWhitespace).reverse)

/-- The record `applyLensToSections` resolves with. -/
structure LensApplicationResult where
  leafletSectionList : Option (List Section)
  explanation : String
  focusingErrors : List FocusingError

/-- `getLensIdenfier(lens) || "Invalid Lens Name"` (`applyLensToSections`). -/
def lensIdentifierOf (lens : Option LensDef) : String :=
  match getLensIdenfier lens with
  | some (.str s) => if s == "" then "Invalid Lens Name" else s
  | some (.nonStr r) => r
  | none => "Invalid Lens Name"

/-- `applyLensToSections` (`executor.ts`).  Every failure path records exactly
    one FocusingError and returns the input section list unchanged; the
    success path reconciles the worker's markup back into sections, keeping
    the previous list when reconciliation yields an empty list.  The
    `typeof lensBase64data !== 'string'` / `typeof lensCode !== 'string'`
    guards of the source can never fire (the extractor only returns strings)
    and are not modelled; the JSDOM parse of the worker result is total in
    this model, so the `HTML parsing failed` wrapper is unreachable. -/
def applyLensToSections (dec : DecodeFn) (exec : ExecOracle) (lens : Option LensDef)
    (leafletSectionList : Option (List Section)) (epi ips : Option FRes)
    (config : LensExecutionConfig) : LensApplicationResult :=
  let lensIdentifier := lensIdentifierOf lens
  match extractLensBase64Data lens with
  | none =>
    { leafletSectionList := leafletSectionList, explanation := "",
      focusingErrors :=
        [⟨"Lens code extraction error: Lens content missing: no Base64 data found in Library.content or Library.data",
          lensIdentifier⟩] }
  | some lensBase64data =>
    if (jsTrim lensBase64data).length == 0 then
      { leafletSectionList := leafletSectionList, explanation := "",
        focusingErrors := [⟨"Lens code extraction error: Lens Base64 data is empty", lensIdentifier⟩] }
    else
      let lensCode := dec lensBase64data
      if (jsTrim lensCode).length == 0 then
        { leafletSectionList := leafletSectionList, explanation := "",
          focusingErrors := [⟨"Lens code extraction error: Decoded lens code is empty", lensIdentifier⟩] }
      else
        match leafletSectionList with
        | none =>
          { leafletSectionList := leafletSectionList, explanation := "",
            focusingErrors := [⟨"No leaflet sections found", lensIdentifier⟩] }
        | some secs =>
          if secs.isEmpty then
            { leafletSectionList := leafletSectionList, explanation := "",
              focusingErrors := [⟨"No leaflet sections found", lensIdentifier⟩] }
          else if lensCode == "" then
            { leafletSectionList := leafletSectionList, explanation := "",
              focusingErrors := [⟨"Lens is undefined or empty", lensIdentifier⟩] }
          else
            let leafletHTMLString := getLeafletHTMLString secs
            match exec lensCode epi ips leafletHTMLString config.lensExecutionTimeout with
            | .error e =>
              { leafletSectionList := leafletSectionList, explanation := "",
                focusingErrors := [⟨"Error executing lens: " ++ e, lensIdentifier⟩] }
            | .ok result =>
              let newLeafletSectionList :=
                getLeafletSectionListFromHTMLString result.enhancedHtml secs
              let finalSections :=
                if newLeafletSectionList.isEmpty then secs else newLeafletSectionList
              { leafletSectionList := some finalSections,
                explanation := result.explanation,
                focusingErrors := [] }

/-- The loop state of `applyLenses`: the (mutated) ePI, the current leaflet
    section list, and the accumulated per-lens error lists. -/
structure PipeState where
  epi : Option FRes
  sections : Option (List Section)
  errors : List (List FocusingError)

/-- One iteration of the `applyLenses` loop: mark the ePI enhanced (throws on
    a document without composition), apply the lens to the current sections,
    record its error list, and on success advance the sections and append the
    LensesApplied extension. -/
def lensStep (dec : DecodeFn) (exec : ExecOracle) (ips : Option FRes)
    (config : LensExecutionConfig) (st : PipeState) (lens : Option LensDef) :
    Except String PipeState := do
  let epi1 ← setCategoryCode st.epi "E" "Enhanced"
  let lensIdentifier := getLensIdenfier lens
  let epiLanguage ← getlanguage epi1
  let lensApplication := applyLensToSections dec exec lens st.sections epi1 ips config
  let errors := st.errors ++ [lensApplication.focusingErrors]
  if lensApplication.focusingErrors.length == 0 then
    let explanationText := explanationValueOf lensApplication.explanation epiLanguage
    if explanationNonEmpty explanationText then
      let epiExtensions ← getExtensions epi1
      let epi2 ← setExtensions epi1
        (epiExtensions ++ [mkLensesAppliedExt (jsStringOfIdentifier lensIdentifier) explanationText])
      pure ⟨epi2, lensApplication.leafletSectionList, errors⟩
    else
      let epi2 ← setExtensions epi1 []
      pure ⟨epi2, lensApplication.leafletSectionList, errors⟩
  else
    pure ⟨epi1, st.sections, errors⟩

/-- The record `applyLenses` resolves with. -/
structure ApplyLensesResult where
  epi : Option FRes
  focusingErrors : List (List FocusingError)

/-- `applyLenses` (`executor.ts`): read the leaflet, iterate `lensStep` over
    the lenses in input order, then write the final section list back. -/
def applyLenses (dec : DecodeFn) (exec : ExecOracle) (epi ips : Option FRes)
    (completeLenses : List (Option LensDef)) (config : LensExecutionConfig) :
    Except String ApplyLensesResult := do
  let stF ← completeLenses.foldlM (lensStep dec exec ips config) ⟨epi, getLeaflet epi, []⟩
  pure ⟨writeLeaflet stF.epi stF.sections, stF.errors⟩

/-! ## Observables used by the theorems -/

/-- The extension list of the document's composition (empty when the
    composition or the list is absent): the observable C9/C6 reason about. -/
def compExtensions (epi : Option FRes) : List Ext :=
  match findResourceByType epi "Composition" with
  | some c => (match c.extensionL with | some l => l | none => [])
  | none => []

/-- The section list of the document's composition (none when the composition
    is absent). -/
def compSectionL (epi : Option FRes) : Option (List Section) :=
  match findResourceByType epi "Composition" with
  | some c => c.sectionL
  | none => none

/-- The language of the document's composition, with the `|| null`
    normalization of `getlanguage`. -/
def compLanguage (epi : Option FRes) : Option String :=
  match findResourceByType epi "Composition" with
  | some c => (match c.language with | some "" => none | x => x)
  | none => none

/-- The ePI as it is when iteration `i` of the `applyLenses` loop calls
    `applyLensToSections`: the state's ePI after `setCategoryCode`. -/
def epiAtStep (st : PipeState) : Option FRes :=
  updateFirstResourceByType st.epi "Composition" (setCategoryOnComposition "E" "Enhanced")

/-- The `applyLensToSections` result produced for `lens` at loop state `st`. -/
def appAt (dec : DecodeFn) (exec : ExecOracle) (ips : Option FRes)
    (config : LensExecutionConfig) (st : PipeState) (lens : Option LensDef) :
    LensApplicationResult :=
  applyLensToSections dec exec lens st.sections (epiAtStep st) ips config

/-! ## The settlement protocol of `executeLensInWorker` -/

/-- A terminal worker message (`{success, result?, error?}` as posted by
    `lens-worker.js`). -/
inductive TMsg : Type where
  | success (result : WorkerRes)
  | failure (error : Option String)

/-- An event observed by the promise executor of `executeLensInWorker`:
    the deadline timer firing, a forwarded log message, a terminal worker
    message, a worker `error` event, or a worker `exit` event. -/
inductive WEvent : Type where
  | timeoutFire
  | logMsg (message : String)
  | terminalMsg (m : TMsg)
  | errorEvent (e : String)
  | exitEvent (code : Int)

/-- The mutable state of one `executeLensInWorker` invocation: the `isSettled`
    guard, whether `clearTimeout` ran (or the timer already fired), whether
    `worker.terminate()` was called, the settled promise outcome (none while
    pending), and the forwarded logs. -/
structure WState where
  isSettled : Bool
  timerCleared : Bool
  terminated : Bool
  outcome : Option (Except String WorkerRes)
  logs : List String

/-- State at dispatch. -/
def initialWState : WState := ⟨false, false, false, none, []⟩

/-- The rejection message of the timeout path. -/
def timeoutMessage (timeoutMs : Nat) : String :=
  "Lens execution timed out after " ++ toString timeoutMs ++ "ms"

/-- `message.error || 'Unknown worker error'`. -/
def normalizeWorkerError : Option String → String
  | some s => if s == "" then "Unknown worker error" else s
  | none => "Unknown worker error"

/-- One event handled by the `executeLensInWorker` handlers.  A fired or
    cleared timer never fires again; log messages are forwarded even after
    settlement (the handler returns before the guard); every other handler is
    guarded by `isSettled`.  A clean exit (code 0) before settlement marks the
    invocation settled without recording any outcome. -/
def wstep (timeoutMs : Nat) (s : WState) : WEvent → WState
  | .timeoutFire =>
    if s.timerCleared then s
    else if s.isSettled then { s with timerCleared := true }
    else ⟨true, true, true, some (.error (timeoutMessage timeoutMs)), s.logs⟩
  | .logMsg m => { s with logs := s.logs ++ [m] }
  | .terminalMsg m =>
    if s.isSettled then s
    else
      { s with isSettled := true, timerCleared := true, terminated := true,
               outcome := some (match m with
                 | .success r => .ok r
                 | .failure e => .error (normalizeWorkerError e)) }
  | .errorEvent e =>
    if s.isSettled then s
    else { s with isSettled := true, timerCleared := true, outcome := some (.error e) }
  | .exitEvent code =>
    if s.isSettled then s
    else
      { s with isSettled := true, timerCleared := true,
               outcome := if code != 0
                 then some (.error ("Worker stopped with exit code " ++ toString code))
                 else none }

/-- Run one `executeLensInWorker` invocation over a sequence of events. -/
def wrun (timeoutMs : Nat) (events : List WEvent) : WState :=
  events.foldl (wstep timeoutMs) initialWState

/-! ## Concrete fixtures used by counterexamples and witnesses -/

/-- A lens resource carrying only `resourceType: 'Library'` — the input of
    `executor.test.ts`, `should return unknown-lens when both are missing`. -/
def lensOnlyResourceType : LensDef :=
  { name := none, identifier := none, id := none, content := .absent, data := none }

/-- A well-formed enhanced-markup fragment. -/
def enhanceOkHtml : Html := [HtmlNode.elem "div" [("xmlns", xhtmlNs)] [HtmlNode.text "ok"]]

/-- A lens whose compiled source returns an object whose `enhance` resolves to
    a string but whose `explanation` throws. -/
def runExplanationThrows : Except String LensReturn :=
  .ok (.object (some (.ok (.str enhanceOkHtml))) (some (.error "explanation failed")))

/-- A decode oracle: every payload decodes to the fixed source `"code"`. -/
def decFixed : DecodeFn := fun _ => "code"

/-- An execution oracle that always returns the worker's posting for
    `runExplanationThrows`. -/
def execExplanationThrows : ExecOracle := fun _ _ _ _ _ => lensWorker runExplanationThrows

/-- A lens named `lens-4` with an inline base64 content attachment. -/
def lensInlineNamed : LensDef :=
  { name := some (.str "lens-4"), identifier := none, id := none,
    content := .arr [{ contentType := some "application/javascript",
                       data := some (.str "Y29kZQ=="), url := none }],
    data := none }

/-- A minimal section (no markup). -/
def emptySection : Section := Section.mk none none none none none

/-! ## Decoder lemmas and fixtures (C7) -/

/-- A lens whose payload lives only in the tolerated content-as-object shape. -/
def lensContentObject : LensDef :=
  { name := none, identifier := none, id := none,
    content := .obj { contentType := none, data := some (.str "Zm9v"), url := none },
    data := none }

/-- A lens whose payload is an inline content-array attachment. -/
def lensInlinePayload (p : String) : LensDef :=
  { name := none, identifier := none, id := none,
    content := .arr [{ contentType := some "application/javascript",
                       data := some (.str p), url := none }],
    data := none }

/-- The data-URL prefix used by the data-URL fixture. -/
def dataUrlPrefix : String := "data:application/javascript;base64,"

/-- A lens whose equivalent payload is stored as a data-URL attachment. -/
def lensDataUrlPayload (p : String) : LensDef :=
  { name := none, identifier := none, id := none,
    content := .arr [{ contentType := some "application/javascript", data := none,
                       url := some (.str (dataUrlPrefix ++ p)) }],
    data := none }

/-! ## Structural fatal case fixtures and theorems (C3) -/

/-- A document with no composition-like root: a Bundle whose only entry is a
    Patient resource. -/
def epiNoComposition : Option FRes :=
  some (.mk "Bundle" (some [some (.mk "Patient" none none none none none)]) none none none none)

/-- An execution oracle that returns the input markup unchanged with no
    explanation. -/
def execIdentity : ExecOracle := fun _ _ _ html _ => .ok ⟨html, ""⟩

/-! ## Round-trip reconciliation (C5) -/

/-- The markup contributed by a section's own `text.div`. -/
def sectionDiv (s : Section) : Html :=
  match s.text with
  | some n => (match n.div with | some d => d | none => [])
  | none => []

/-- A section whose round trip is exact: it carries a title and a code, has no
    child sections or entries, and its markup is exactly one marked div block
    containing no nested marked div. -/
def simpleMarkedSection : Section → Bool
  | Section.mk (some _) (some _) (some ⟨_, some [d]⟩) none none =>
    isMarkedDiv d && (collectDivs (nodeChildren d)).isEmpty
  | _ => false

/-- The reconciled image of a well-formed section: same title and code, the
    markup block rewrapped as an `additional` narrative, no children. -/
def reconciledImage (s : Section) : Section :=
  Section.mk s.title s.code (some ⟨some "additional", some (sectionDiv s)⟩) none none

/-- A marked div with text content. -/
def markedDiv (body : String) : HtmlNode :=
  HtmlNode.elem "div" [("xmlns", xhtmlNs)] [HtmlNode.text body]

/-- A concrete simple classification code. -/
def codeOf (c : String) : SectionCode :=
  { coding := some [{ system := none, code := some c, display := none }] }

/-- A concrete two-section leaflet used by the C5 witness. -/
def wsList : List Section :=
  [Section.mk (some "A") (some (codeOf "a"))
     (some ⟨some "additional", some [markedDiv "alpha"]⟩) none none,
   Section.mk (some "B") (some (codeOf "b"))
     (some ⟨some "additional", some [markedDiv "beta"]⟩) none none]

/-- A leaflet slot section holding the witness leaflet `wsList`. -/
def leafletSlotSection : Section := Section.mk (some "Leaflet") none none (some wsList) none

/-- A Composition with a prior extension, Spanish language and a leaflet. -/
def compositionEs : FRes :=
  .mk "Composition" none (some [leafletSlotSection]) none (some "es") (some [Ext.otherExt "prior"])

/-- A Bundle ePI containing `compositionEs`. -/
def epiBundleEs : Option FRes :=
  some (.mk "Bundle" (some [some compositionEs]) none none none none)

/-- The initial loop state of `applyLenses` on `epiBundleEs`. -/
def pipeSt0 : PipeState := ⟨epiBundleEs, getLeaflet epiBundleEs, []⟩

/-- The loop state after one successful lens application (computed). -/
def pipeSt1 : PipeState :=
  match lensStep decFixed execIdentity none getDefaultConfig pipeSt0 (some lensInlineNamed) with
  | .ok st => st
  | .error _ => pipeSt0

/-- A Composition like `compositionEs` whose language names an inherited
    `Object.prototype` property. -/
def compositionTs : FRes :=
  .mk "Composition" none (some [leafletSlotSection]) none (some "toString")
    (some [Ext.otherExt "prior"])

/-- A Bundle ePI containing `compositionTs`. -/
def epiBundleTs : Option FRes :=
  some (.mk "Bundle" (some [some compositionTs]) none none none none)

/-- The initial loop state of `applyLenses` on `epiBundleTs`. -/
def pipeTs0 : PipeState := ⟨epiBundleTs, getLeaflet epiBundleTs, []⟩

/-- The loop state after one successful lens application on `epiBundleTs`. -/
def pipeTs1 : PipeState :=
  match lensStep decFixed execIdentity none getDefaultConfig pipeTs0 (some lensInlineNamed) with
  | .ok st => st
  | .error _ => pipeTs0

/-- The per-lens error list produced for `lens` at loop state `st` (what
    iteration `i` of `applyLenses` pushes onto `focusingErrors`). -/
def stepErrors (dec : DecodeFn) (exec : ExecOracle) (ips : Option FRes)
    (config : LensExecutionConfig) (st : PipeState) (lens : Option LensDef) :
    List FocusingError :=
  (appAt dec exec ips config st lens).focusingErrors

/-- The sequence of loop states traversed by one `applyLenses` run
    (`none` when some iteration throws). -/
def runTrajectory (dec : DecodeFn) (exec : ExecOracle) (ips : Option FRes)
    (config : LensExecutionConfig) : PipeState → List (Option LensDef) →
    Option (List PipeState)
  | st, [] => some [st]
  | st, lens :: rest =>
    match lensStep dec exec ips config st lens with
    | .ok st2 => (runTrajectory dec exec ips config st2 rest).map (fun sts => st :: sts)
    | .error _ => none

/-- A lens with no payload at all (extraction fails). -/
def lensNoContent : LensDef :=
  { name := some (.str "bad-lens"), identifier := none, id := none,
    content := .absent, data := none }

/-- The result of a concrete two-lens run (failing lens then valid lens). -/
def res6 : ApplyLensesResult :=
  match applyLenses decFixed execIdentity epiBundleEs none
      [some lensNoContent, some lensInlineNamed] getDefaultConfig with
  | .ok r => r
  | .error _ => ⟨none, []⟩

/-! ## Theorems -/

/-! ## Claim theorems -/

/-- C10: for every lens in every run, the per-lens FocusingError list returned
    by `applyLensToSections` contains at most one element — every failure path
    records exactly one error and returns immediately, and the success path
    records none. -/
theorem applyLensToSections_at_most_one_error
    (dec : DecodeFn) (exec : ExecOracle) (lens : Option LensDef)
    (leafletSectionList : Option (List Section)) (epi ips : Option FRes)
    (config : LensExecutionConfig) :
    (applyLensToSections dec exec lens leafletSectionList epi ips config).focusingErrors.length
      ≤ 1 := by
  unfold applyLensToSections
  dsimp only
  repeat' split
  all_goals simp

/-- C8: evaluation of `getLensIdenfier` at the failing input of the
    repository's own test suite (`executor.test.ts:105`, a Library with no
    `identifier`, no `id`, no `name`): the code returns null, not the
    documented sentinel string `"unknown-lens"` that the spec and the
    documented `getLensIdentifier` (modelled by `getLensIdentifierSpec`)
    produce. -/
theorem getLensIdenfier_no_sentinel_on_bare_library :
    getLensIdenfier (some lensOnlyResourceType) = none ∧
    getLensIdentifierSpec lensOnlyResourceType = "unknown-lens" ∧
    getLensIdenfier none = none := by
  refine ⟨rfl, rfl, rfl⟩

/-- C4: evaluation at the failing input — a lens whose `enhance` resolves to a
    string while its `explanation` throws.  The worker posts a failure (the
    promise chain of `lens-worker.js` has no catch around `explanation()`
    alone), so the orchestrator records a FocusingError and does not merge the
    markup, where the spec-modelled worker (matching the documented execution
    model) swallows the failure and succeeds with an empty explanation. -/
theorem explanation_failure_is_surfaced :
    lensWorker runExplanationThrows = .error "explanation failed" ∧
    lensWorkerSpec runExplanationThrows = .ok ⟨enhanceOkHtml, ""⟩ ∧
    (applyLensToSections decFixed execExplanationThrows (some lensInlineNamed)
        (some [emptySection]) none none getDefaultConfig).focusingErrors
      = [⟨"Error executing lens: explanation failed", "lens-4"⟩] := by
  refine ⟨rfl, rfl, by decide⟩

theorem isPrefixOf_append_right (l1 : List Char) :
    ∀ l2 l3 : List Char, l1.isPrefixOf l2 = true → l1.isPrefixOf (l2 ++ l3) = true := by
  induction l1 with
  | nil => intro l2 l3 _; cases l2 <;> cases l3 <;> simp [List.isPrefixOf]
  | cons a as ih =>
    intro l2 l3 h
    cases l2 with
    | nil => simp [List.isPrefixOf] at h
    | cons b bs =>
      simp only [List.isPrefixOf, Bool.and_eq_true] at h
      simp only [List.cons_append, List.isPrefixOf, Bool.and_eq_true]
      exact ⟨h.1, ih bs l3 h.2⟩

theorem not_isPrefixOf_append (l1 : List Char) :
    ∀ l2 l3 : List Char, l1.length ≤ l2.length → l1.isPrefixOf l2 = false →
      l1.isPrefixOf (l2 ++ l3) = false := by
  induction l1 with
  | nil => intro l2 l3 _ h; simp [List.isPrefixOf] at h
  | cons a as ih =>
    intro l2 l3 hlen h
    cases l2 with
    | nil => simp at hlen
    | cons b bs =>
      simp only [List.isPrefixOf, Bool.and_eq_false_iff] at h
      simp only [List.cons_append, List.isPrefixOf, Bool.and_eq_false_iff]
      cases h with
      | inl hb => exact Or.inl hb
      | inr hrest =>
        simp only [List.length_cons, Nat.succ_le_succ_iff] at hlen
        exact Or.inr (ih bs l3 hlen hrest)

theorem subIdx_append (pat : List Char) (hne : pat ≠ []) :
    ∀ (l2 l3 : List Char) (n : Nat), subIdx pat l2 = some n →
      n + pat.length ≤ l2.length → subIdx pat (l2 ++ l3) = some n := by
  intro l2
  induction l2 with
  | nil =>
    intro l3 n h _
    have hblank : pat.isEmpty = false := by
      cases pat with
      | nil => exact absurd rfl hne
      | cons a as => rfl
    simp [subIdx, hblank] at h
  | cons c cs ih =>
    intro l3 n h hfit
    rw [List.cons_append]
    by_cases hp : pat.isPrefixOf (c :: cs) = true
    · simp only [subIdx, hp, if_true] at h
      have h2 := isPrefixOf_append_right pat (c :: cs) l3 hp
      rw [List.cons_append] at h2
      simp only [subIdx, h2, if_true]
      exact h
    · have hp2 : pat.isPrefixOf (c :: cs) = false := by
        cases hx : pat.isPrefixOf (c :: cs) with
        | true => exact absurd hx hp
        | false => rfl
      simp only [subIdx, hp2, Bool.false_eq_true, if_false] at h
      cases hs : subIdx pat cs with
      | none => rw [hs] at h; simp at h
      | some m =>
        rw [hs] at h
        simp only [Option.map] at h
        have hn : m + 1 = n := by
          cases h
          rfl
        have hfit2 : m + pat.length ≤ cs.length := by
          simp only [List.length_cons] at hfit
          omega
        have hlen : pat.length ≤ (c :: cs).length := by
          simp only [List.length_cons] at hfit ⊢
          omega
        have hnp := not_isPrefixOf_append pat (c :: cs) l3 hlen hp2
        rw [List.cons_append] at hnp
        simp only [subIdx, hnp, Bool.false_eq_true, if_false, ih l3 m hs hfit2, Option.map]
        rw [hn]

/-- C7 counterexample: a LensDefinition whose payload lives only in the
    tolerated content-as-object shape is decoded by the code, while the
    three-strategy search the claim describes finds nothing — so "returns
    null when none [of the three] is found" fails on this input. -/
theorem extractLensBase64Data_content_object_counterexample :
    extractLensBase64Data (some lensContentObject) = some "Zm9v" ∧
    extractLensBase64DataSpec (some lensContentObject) = none :=
  ⟨rfl, rfl⟩

/-- C7 (amended): outside the content-as-object shape the code implements
    exactly the spec's three prioritized strategies (so it returns null when
    none of them matches); content-as-object is a fourth, last-resort
    strategy; and a data-URL payload decodes to the same source text as an
    equivalent inline payload.  The extractor is total (never throws). -/
theorem extractLensBase64Data_strategy_order :
    (∀ l : LensDef, (∀ a, l.content ≠ .obj a) →
        extractLensBase64Data (some l) = extractLensBase64DataSpec (some l)) ∧
    (∀ p : String, p ≠ "" →
        extractLensBase64Data (some (lensInlinePayload p)) = some p ∧
        extractLensBase64Data (some (lensDataUrlPayload p)) = some p) ∧
    extractLensBase64Data none = none := by
  refine ⟨?_, ?_, rfl⟩
  · intro l h
    obtain ⟨name, idf, idv, content, data⟩ := l
    have htail : extractTail ⟨name, idf, idv, content, data⟩
        = extractLensBase64DataSpec.extractDataFieldSpec ⟨name, idf, idv, content, data⟩ := by
      cases content with
      | obj a => exact absurd rfl (h a)
      | absent =>
        cases data with
        | none => rfl
        | some d =>
          cases d with
          | str s =>
            simp only [extractTail, extractLensBase64DataSpec.extractDataFieldSpec,
              extractContentObj]
          | nonStr r => rfl
      | arr items =>
        cases data with
        | none => rfl
        | some d =>
          cases d with
          | str s =>
            simp only [extractTail, extractLensBase64DataSpec.extractDataFieldSpec,
              extractContentObj]
          | nonStr r => rfl
    cases content with
    | obj a => exact absurd rfl (h a)
    | absent => exact htail
    | arr items =>
      show (if items.length > 0 then _ else extractTail _)
        = (if items.length > 0 then _ else extractLensBase64DataSpec.extractDataFieldSpec _)
      repeat' split
      all_goals rfl
  · intro p hp
    have hpos : 0 < p.length := by
      cases p with
      | mk l =>
        cases l with
        | nil => exact absurd rfl hp
        | cons a as => simp [String.length]
    constructor
    · have hattr : isNonEmptyStrData
          { contentType := some "application/javascript", data := some (.str p), url := none }
            = true := by
        simp only [isNonEmptyStrData]
        exact decide_eq_true hpos
      simp only [extractLensBase64Data, lensInlinePayload, List.length_cons,
        List.length_nil, gt_iff_lt, Nat.zero_lt_succ, if_true, List.find?, hattr]
    · have hdata : (dataUrlPrefix ++ p).data = dataUrlPrefix.data ++ p.data :=
        String.data_append dataUrlPrefix p
      have hpre : "data:".data.isPrefixOf (dataUrlPrefix ++ p).data = true := by
        rw [hdata]
        exact isPrefixOf_append_right _ _ _ (by decide)
      have hurl : isDataUrl
          { contentType := some "application/javascript", data := none,
            url := some (.str (dataUrlPrefix ++ p)) } = true := by
        simp only [isDataUrl]
        exact hpre
      have hsub : subIdx "base64,".data (dataUrlPrefix ++ p).data = some 28 := by
        rw [hdata]
        exact subIdx_append "base64,".data (by decide) dataUrlPrefix.data p.data 28
          (by decide) (by decide)
      have hdrop : (dataUrlPrefix ++ p).data.drop (28 + "base64,".length) = p.data := by
        rw [hdata]
        have h35 : 28 + "base64,".length = dataUrlPrefix.data.length := by decide
        rw [h35]
        exact List.drop_left _ _
      have hnd : isNonEmptyStrData
          { contentType := some "application/javascript", data := none,
            url := some (.str (dataUrlPrefix ++ p)) } = false := rfl
      simp only [extractLensBase64Data, lensDataUrlPayload, List.length_cons,
        List.length_nil, gt_iff_lt, Nat.zero_lt_succ, if_true, List.find?, hnd, hurl, hsub,
        hdrop]

/-- Witness for the amended C7 theorem at concrete inputs. -/
theorem extractLensBase64Data_strategy_order_witness :
    extractLensBase64Data (some (lensInlinePayload "Zm9v")) = some "Zm9v" ∧
    extractLensBase64Data (some (lensDataUrlPayload "Zm9v")) = some "Zm9v" ∧
    extractLensBase64Data (some (lensInlinePayload "Zm9v"))
      = extractLensBase64DataSpec (some (lensInlinePayload "Zm9v")) := by
  refine ⟨(extractLensBase64Data_strategy_order.2.1 "Zm9v" (by decide)).1,
          (extractLensBase64Data_strategy_order.2.1 "Zm9v" (by decide)).2,
          extractLensBase64Data_strategy_order.1 (lensInlinePayload "Zm9v")
            (fun a h => by cases h)⟩

/-- C3 counterexample: with an empty lens list, a call on a document lacking
    any composition-like root returns normally — the unchanged document and an
    empty error report — rather than rejecting, so the claim's "for every lens
    list, including the empty one" fails. -/
theorem applyLenses_no_composition_empty_list_returns :
    applyLenses decFixed execIdentity epiNoComposition none [] getDefaultConfig
      = .ok ⟨epiNoComposition, []⟩ := rfl

/-- C3 (amended): a document in which no composition-like root can be located
    makes `applyLenses` reject for every non-empty lens list (the `TypeError`
    thrown by `setCategoryCode` on the missing composition propagates to the
    caller before any lens is attempted); with the empty lens list the call
    instead returns the document unchanged with an empty error report. -/
theorem applyLenses_no_composition
    (dec : DecodeFn) (exec : ExecOracle) (epi ips : Option FRes)
    (config : LensExecutionConfig)
    (hcomp : findResourceByType epi "Composition" = none) :
    (applyLenses dec exec epi ips [] config = .ok ⟨epi, []⟩) ∧
    (∀ (lens : Option LensDef) (rest : List (Option LensDef)),
      applyLenses dec exec epi ips (lens :: rest) config
        = .error "TypeError: Cannot read properties of null (reading category)") := by
  constructor
  · show (do
      let stF ← List.foldlM (lensStep dec exec ips config) ⟨epi, getLeaflet epi, []⟩ []
      pure (⟨writeLeaflet stF.epi stF.sections, stF.errors⟩ : ApplyLensesResult))
        = Except.ok ⟨epi, []⟩
    simp only [List.foldlM, pure, Except.pure, Except.bind, bind, writeLeaflet, hcomp]
  · intro lens rest
    show (do
      let stF ← List.foldlM (lensStep dec exec ips config) ⟨epi, getLeaflet epi, []⟩ (lens :: rest)
      pure (⟨writeLeaflet stF.epi stF.sections, stF.errors⟩ : ApplyLensesResult))
        = Except.error "TypeError: Cannot read properties of null (reading category)"
    have hstep : lensStep dec exec ips config ⟨epi, getLeaflet epi, []⟩ lens
        = .error "TypeError: Cannot read properties of null (reading category)" := by
      simp only [lensStep, setCategoryCode, hcomp, Except.bind, bind]
    simp only [List.foldlM, hstep, Except.bind, bind, pure, Except.pure]

/-- Witness for the amended C3 theorem at concrete inputs. -/
theorem applyLenses_no_composition_witness :
    applyLenses decFixed execIdentity epiNoComposition none [some lensInlineNamed] getDefaultConfig
      = .error "TypeError: Cannot read properties of null (reading category)" ∧
    applyLenses decFixed execIdentity epiNoComposition none [] getDefaultConfig
      = .ok ⟨epiNoComposition, []⟩ := by
  have h := applyLenses_no_composition decFixed execIdentity epiNoComposition none
    getDefaultConfig rfl
  exact ⟨h.2 (some lensInlineNamed) [], h.1⟩

/-! ## Settlement lemmas (C2) -/

theorem wstep_preserves_settled (timeoutMs : Nat) (s : WState) (e : WEvent)
    (h : s.isSettled = true) :
    (wstep timeoutMs s e).outcome = s.outcome ∧ (wstep timeoutMs s e).isSettled = true := by
  cases e with
  | timeoutFire =>
    by_cases hc : s.timerCleared = true
    · simp [wstep, hc, h]
    · have hc2 : s.timerCleared = false := by
        cases hx : s.timerCleared with
        | true => exact absurd hx hc
        | false => rfl
      simp [wstep, hc2, h]
  | logMsg m => simp [wstep, h]
  | terminalMsg m => simp [wstep, h]
  | errorEvent e => simp [wstep, h]
  | exitEvent c => simp [wstep, h]

theorem foldl_wstep_settled (timeoutMs : Nat) :
    ∀ (events : List WEvent) (s : WState), s.isSettled = true →
      (events.foldl (wstep timeoutMs) s).outcome = s.outcome ∧
      (events.foldl (wstep timeoutMs) s).isSettled = true := by
  intro events
  induction events with
  | nil => intro s h; exact ⟨rfl, h⟩
  | cons e es ih =>
    intro s h
    have hw := wstep_preserves_settled timeoutMs s e h
    have hrest := ih (wstep timeoutMs s e) hw.2
    exact ⟨hrest.1.trans hw.1, hrest.2⟩

/-- C2 counterexample: a worker that exits cleanly (code 0) before posting any
    terminal message marks the invocation settled without recording any
    outcome, and no later event — a timeout firing, a terminal message, an
    error or another exit — can settle it: zero outcomes are ever produced for
    this invocation, not exactly one. -/
theorem executeLensInWorker_clean_exit_no_outcome :
    (wrun 1000 [WEvent.exitEvent 0]).isSettled = true ∧
    (wrun 1000 [WEvent.exitEvent 0]).outcome = none ∧
    (wrun 1000 [WEvent.exitEvent 0, WEvent.timeoutFire,
        WEvent.terminalMsg (.success ⟨enhanceOkHtml, "done"⟩),
        WEvent.errorEvent "boom", WEvent.exitEvent 1]).outcome = none :=
  ⟨rfl, rfl, rfl⟩

/-- C2 (amended): at most one outcome is ever produced per invocation — once
    the promise is settled, no further event changes the outcome; while the
    invocation is unsettled and the deadline timer is still armed, its firing
    forcibly terminates the worker and rejects with a message naming the
    elapsed timeout in milliseconds; and such a rejection is recorded by the
    orchestrator as exactly one FocusingError for that lens.  (Exactly-one
    settlement fails only in the clean-exit-before-terminal-message case of
    the counterexample.) -/
theorem executeLensInWorker_settlement (timeoutMs : Nat) :
    (∀ (s : WState) (events : List WEvent), s.isSettled = true →
        (events.foldl (wstep timeoutMs) s).outcome = s.outcome ∧
        (events.foldl (wstep timeoutMs) s).isSettled = true) ∧
    (∀ s : WState, s.isSettled = false → s.timerCleared = false →
        wstep timeoutMs s .timeoutFire
          = ⟨true, true, true, some (.error (timeoutMessage timeoutMs)), s.logs⟩) ∧
    (∀ (dec : DecodeFn) (lens : Option LensDef) (secs : List Section)
        (epi ips : Option FRes) (config : LensExecutionConfig) (m b64 : String),
        extractLensBase64Data lens = some b64 →
        (jsTrim b64).length ≠ 0 →
        (jsTrim (dec b64)).length ≠ 0 →
        secs ≠ [] →
        (applyLensToSections dec (fun _ _ _ _ _ => .error m) lens (some secs)
            epi ips config).focusingErrors
          = [⟨"Error executing lens: " ++ m, lensIdentifierOf lens⟩]) := by
  refine ⟨fun s events h => foldl_wstep_settled timeoutMs events s h, ?_, ?_⟩
  · intro s h1 h2
    simp [wstep, h1, h2]
  · intro dec lens secs epi ips config m b64 hb64 ht1 ht2 hsecs
    have hq1 : ((jsTrim b64).length == 0) = false := by
      simp only [beq_eq_false_iff_ne, ne_eq]
      exact ht1
    have hq2 : ((jsTrim (dec b64)).length == 0) = false := by
      simp only [beq_eq_false_iff_ne, ne_eq]
      exact ht2
    have hne : dec b64 ≠ "" := by
      intro he
      apply ht2
      rw [he]
      rfl
    have hq3 : (dec b64 == "") = false := by
      simp only [beq_eq_false_iff_ne, ne_eq]
      exact hne
    have hq4 : secs.isEmpty = false := by
      cases secs with
      | nil => exact absurd rfl hsecs
      | cons a as => rfl
    simp only [applyLensToSections, hb64, hq1, hq2, hq3, hq4, Bool.false_eq_true, if_false]

/-- Witness for the amended C2 theorem at concrete inputs. -/
theorem executeLensInWorker_settlement_witness :
    (wrun 1000 [WEvent.terminalMsg (.success ⟨enhanceOkHtml, "done"⟩),
        WEvent.exitEvent 1]).outcome = some (.ok ⟨enhanceOkHtml, "done"⟩) ∧
    wstep 1000 initialWState .timeoutFire
      = ⟨true, true, true, some (.error (timeoutMessage 1000)), []⟩ ∧
    (applyLensToSections decFixed (fun _ _ _ _ _ => .error (timeoutMessage 1000))
        (some lensInlineNamed) (some [emptySection]) none none getDefaultConfig).focusingErrors
      = [⟨"Error executing lens: " ++ timeoutMessage 1000, "lens-4"⟩] := by
  refine ⟨?_, ?_, ?_⟩
  · have h := (executeLensInWorker_settlement 1000).1
      (wstep 1000 initialWState (WEvent.terminalMsg (.success ⟨enhanceOkHtml, "done"⟩)))
      [WEvent.exitEvent 1] rfl
    exact h.1
  · exact (executeLensInWorker_settlement 1000).2.1 initialWState rfl rfl
  · exact (executeLensInWorker_settlement 1000).2.2 decFixed (some lensInlineNamed)
      [emptySection] none none getDefaultConfig (timeoutMessage 1000) "Y29kZQ=="
      rfl (by decide) (by decide) (by simp)

theorem roundtrip_aux (prev : List Section) :
    ∀ (tail : List Section) (k : Nat),
      (∀ s ∈ tail, simpleMarkedSection s = true) →
      (∀ j : Nat, prev.get? (k + j) = tail.get? j) →
      buildSectionsFromDivs prev (collectDivs (getLeafletHTMLString tail)) k
        = tail.map reconciledImage := by
  intro tail
  induction tail with
  | nil =>
    intro k _ _
    simp [getLeafletHTMLString, collectDivs, buildSectionsFromDivs]
  | cons s rest ih =>
    intro k h hidx
    have hs := h s (List.mem_cons_self s rest)
    obtain ⟨title, code, text, sub, entry⟩ := s
    cases title with
    | none => simp [simpleMarkedSection] at hs
    | some t =>
    cases code with
    | none => simp [simpleMarkedSection] at hs
    | some c =>
    cases sub with
    | some l => simp [simpleMarkedSection] at hs
    | none =>
    cases entry with
    | some es => simp [simpleMarkedSection] at hs
    | none =>
    cases text with
    | none => simp [simpleMarkedSection] at hs
    | some n =>
    obtain ⟨st, dv⟩ := n
    cases dv with
    | none => simp [simpleMarkedSection] at hs
    | some l =>
    cases l with
    | nil => simp [simpleMarkedSection] at hs
    | cons d l2 =>
    cases l2 with
    | cons d2 l3 => simp [simpleMarkedSection] at hs
    | nil =>
    simp only [simpleMarkedSection, Bool.and_eq_true, List.isEmpty_iff] at hs
    obtain ⟨hmark, hchild⟩ := hs
    cases d with
    | text str => simp [isMarkedDiv] at hmark
    | elem tag attrs children =>
    have hflat : getLeafletHTMLString
        (Section.mk (some t) (some c) (some ⟨st, some [HtmlNode.elem tag attrs children]⟩)
          none none :: rest)
        = HtmlNode.elem tag attrs children :: getLeafletHTMLString rest := by
      simp [getLeafletHTMLString, sectionHTML]
    have hcollect : collectDivs
        (HtmlNode.elem tag attrs children :: getLeafletHTMLString rest)
        = HtmlNode.elem tag attrs children :: collectDivs (getLeafletHTMLString rest) := by
      simp only [collectDivs, nodeDivs, hmark, if_true]
      simp only [nodeChildren] at hchild
      simp [hchild]
    have hprevk : prev.get? k = some
        (Section.mk (some t) (some c) (some ⟨st, some [HtmlNode.elem tag attrs children]⟩)
          none none) := by
      have := hidx 0
      simpa using this
    have hrest : ∀ j : Nat, prev.get? (k + 1 + j) = rest.get? j := by
      intro j
      have := hidx (j + 1)
      have harith : k + (j + 1) = k + 1 + j := by omega
      rw [harith] at this
      simpa using this
    rw [hflat, hcollect]
    show buildSectionsFromDivs prev
        (HtmlNode.elem tag attrs children :: collectDivs (getLeafletHTMLString rest)) k
      = _
    rw [buildSectionsFromDivs]
    rw [ih (k + 1) (fun x hx => h x (List.mem_cons_of_mem _ hx)) hrest]
    simp only [hprevk, List.map_cons, reconciledImage, Section.title, Section.code, sectionDiv,
      Section.text, Option.bind]

/-- C5 counterexample: a one-section list whose section has no markup flattens
    to the empty string; reconciling that markup back (with the original list
    as previous sections) yields zero sections, not one — the round trip does
    not preserve the number of sections for every section list. -/
theorem roundtrip_drops_section_counterexample :
    (getLeafletSectionListFromHTMLString
        (getLeafletHTMLString [Section.mk (some "T") none none none none])
        [Section.mk (some "T") none none none none]).length = 0 ∧
    ([Section.mk (some "T") none none none none] : List Section).length = 1 :=
  ⟨rfl, rfl⟩

/-- C5 (amended): for every section list whose sections each carry a title and
    a code, have no child sections or entries, and whose markup is exactly one
    marked div block containing no nested marked div, flattening and then
    reconciling the unmodified markup (with the original list as the
    previous-sections argument) produces a list with the same number of
    sections, each with the same title and the same classification code as the
    corresponding original section. -/
theorem roundtrip_reconciliation (ss : List Section)
    (h : ∀ s ∈ ss, simpleMarkedSection s = true) :
    (getLeafletSectionListFromHTMLString (getLeafletHTMLString ss) ss).length = ss.length ∧
    (∀ i : Nat,
      ((getLeafletSectionListFromHTMLString (getLeafletHTMLString ss) ss).get? i).map
          Section.title
        = (ss.get? i).map Section.title ∧
      ((getLeafletSectionListFromHTMLString (getLeafletHTMLString ss) ss).get? i).map
          Section.code
        = (ss.get? i).map Section.code) := by
  have haux := roundtrip_aux ss ss 0 h (fun j => by simp)
  unfold getLeafletSectionListFromHTMLString
  rw [haux]
  refine ⟨by simp, ?_⟩
  intro i
  constructor
  · rw [List.get?_map]
    cases hi : ss.get? i with
    | none => rfl
    | some s => simp [reconciledImage, Section.title]
  · rw [List.get?_map]
    cases hi : ss.get? i with
    | none => rfl
    | some s => simp [reconciledImage, Section.code]

/-- Witness for the amended C5 theorem at a concrete two-section list. -/
theorem roundtrip_reconciliation_witness :
    (getLeafletSectionListFromHTMLString (getLeafletHTMLString wsList) wsList).length = 2 ∧
    ((getLeafletSectionListFromHTMLString (getLeafletHTMLString wsList) wsList).get? 0).map
        Section.title = some (some "A") ∧
    ((getLeafletSectionListFromHTMLString (getLeafletHTMLString wsList) wsList).get? 1).map
        Section.code = some (some (codeOf "b")) := by
  have h := roundtrip_reconciliation wsList (by intro s hs; fin_cases hs <;> rfl)
  exact ⟨h.1.trans rfl, (h.2 0).1.trans rfl, (h.2 1).2.trans rfl⟩

/-! ## Structural lemmas about resource updates (C9, C6, C1) -/

@[simp] theorem FRes.resourceType_withEntry (r : FRes) (e : Option (List (Option FRes))) :
    (r.withEntry e).resourceType = r.resourceType := by
  obtain ⟨a, b, c, d, l, x⟩ := r
  rfl

@[simp] theorem FRes.resourceType_withCategory (r : FRes) (e : Option (List CatCC)) :
    (r.withCategory e).resourceType = r.resourceType := by
  obtain ⟨a, b, c, d, l, x⟩ := r
  rfl

@[simp] theorem FRes.resourceType_withExtensionL (r : FRes) (e : Option (List Ext)) :
    (r.withExtensionL e).resourceType = r.resourceType := by
  obtain ⟨a, b, c, d, l, x⟩ := r
  rfl

@[simp] theorem FRes.resourceType_withSectionL (r : FRes) (e : Option (List Section)) :
    (r.withSectionL e).resourceType = r.resourceType := by
  obtain ⟨a, b, c, d, l, x⟩ := r
  rfl

@[simp] theorem FRes.extensionL_withCategory (r : FRes) (e : Option (List CatCC)) :
    (r.withCategory e).extensionL = r.extensionL := by
  obtain ⟨a, b, c, d, l, x⟩ := r
  rfl

@[simp] theorem FRes.language_withCategory (r : FRes) (e : Option (List CatCC)) :
    (r.withCategory e).language = r.language := by
  obtain ⟨a, b, c, d, l, x⟩ := r
  rfl

@[simp] theorem FRes.sectionL_withCategory (r : FRes) (e : Option (List CatCC)) :
    (r.withCategory e).sectionL = r.sectionL := by
  obtain ⟨a, b, c, d, l, x⟩ := r
  rfl

@[simp] theorem FRes.extensionL_withExtensionL (r : FRes) (e : Option (List Ext)) :
    (r.withExtensionL e).extensionL = e := by
  obtain ⟨a, b, c, d, l, x⟩ := r
  rfl

@[simp] theorem FRes.sectionL_withExtensionL (r : FRes) (e : Option (List Ext)) :
    (r.withExtensionL e).sectionL = r.sectionL := by
  obtain ⟨a, b, c, d, l, x⟩ := r
  rfl

@[simp] theorem FRes.language_withExtensionL (r : FRes) (e : Option (List Ext)) :
    (r.withExtensionL e).language = r.language := by
  obtain ⟨a, b, c, d, l, x⟩ := r
  rfl

@[simp] theorem FRes.sectionL_withSectionL (r : FRes) (e : Option (List Section)) :
    (r.withSectionL e).sectionL = e := by
  obtain ⟨a, b, c, d, l, x⟩ := r
  rfl

@[simp] theorem FRes.extensionL_withSectionL (r : FRes) (e : Option (List Section)) :
    (r.withSectionL e).extensionL = r.extensionL := by
  obtain ⟨a, b, c, d, l, x⟩ := r
  rfl

theorem updateFirstMatching_find (resourceType : String) (f : FRes → FRes)
    (hf : ∀ x, (f x).resourceType = x.resourceType) :
    ∀ entries : List (Option FRes),
      (updateFirstMatching resourceType f entries).find? (entryHasType resourceType)
        = (entries.find? (entryHasType resourceType)).map (fun e => e.map f) := by
  intro entries
  induction entries with
  | nil => rfl
  | cons e rest ih =>
    cases e with
    | none =>
      simp only [updateFirstMatching, List.find?, entryHasType, ih]
    | some x =>
      by_cases hx : (x.resourceType == resourceType) = true
      · simp only [updateFirstMatching, hx, if_true, List.find?, entryHasType]
        have hfx : ((f x).resourceType == resourceType) = true := by
          rw [hf x]
          exact hx
        simp [hfx, hx]
      · have hx2 : (x.resourceType == resourceType) = false := by
          cases hb : (x.resourceType == resourceType) with
          | true => exact absurd hb hx
          | false => rfl
        have hfx2 : ((f x).resourceType == resourceType) = false := by
          rw [hf x]
          exact hx2
        simp only [updateFirstMatching, hx2, Bool.false_eq_true, if_false, List.find?,
          entryHasType, hfx2, ih]

theorem findResourceByType_update (r : Option FRes) (t : String) (f : FRes → FRes)
    (hf : ∀ x, (f x).resourceType = x.resourceType) :
    findResourceByType (updateFirstResourceByType r t f) t
      = (findResourceByType r t).map f := by
  cases r with
  | none => rfl
  | some r =>
    by_cases ht : (r.resourceType == t) = true
    · simp only [updateFirstResourceByType, ht, if_true, findResourceByType]
      have hft : ((f r).resourceType == t) = true := by
        rw [hf r]
        exact ht
      simp [hft, ht]
    · have ht2 : (r.resourceType == t) = false := by
        cases hb : (r.resourceType == t) with
        | true => exact absurd hb ht
        | false => rfl
      by_cases hbundle : (r.resourceType == "Bundle") = true
      · cases hentry : r.entry with
        | none =>
          simp only [updateFirstResourceByType, ht2, Bool.false_eq_true, if_false, hbundle,
            if_true, hentry, findResourceByType]
          simp [ht2, hbundle, hentry]
        | some entries =>
          simp only [updateFirstResourceByType, ht2, Bool.false_eq_true, if_false, hbundle,
            if_true, hentry, findResourceByType]
          have hrt : ((r.withEntry (some (updateFirstMatching t f entries))).resourceType == t)
              = false := by
            rw [FRes.resourceType_withEntry]
            exact ht2
          have hrb : ((r.withEntry (some (updateFirstMatching t f entries))).resourceType
              == "Bundle") = true := by
            rw [FRes.resourceType_withEntry]
            exact hbundle
          simp only [hrt, Bool.false_eq_true, if_false, hrb, if_true]
          have hre : (r.withEntry (some (updateFirstMatching t f entries))).entry
              = some (updateFirstMatching t f entries) := by
            obtain ⟨a, b, c, d, l, x⟩ := r
            rfl
          rw [hre]
          dsimp only
          have hfind := updateFirstMatching_find t f hf entries
          rw [hfind]
          cases hfe : entries.find? (entryHasType t) with
          | none => rfl
          | some e =>
            cases e with
            | none => rfl
            | some x => rfl
      · have hb2 : (r.resourceType == "Bundle") = false := by
          cases hb : (r.resourceType == "Bundle") with
          | true => exact absurd hb hbundle
          | false => rfl
        simp [updateFirstResourceByType, findResourceByType, ht2, hb2]

theorem setCategoryOnComposition_fields (code display : String) (c : FRes) :
    (setCategoryOnComposition code display c).resourceType = c.resourceType ∧
    (setCategoryOnComposition code display c).extensionL = c.extensionL ∧
    (setCategoryOnComposition code display c).language = c.language ∧
    (setCategoryOnComposition code display c).sectionL = c.sectionL := by
  unfold setCategoryOnComposition
  repeat'
    first
      | split
      | split_ifs
  all_goals simp

@[simp] theorem FRes.category_withCategory (r : FRes) (e : Option (List CatCC)) :
    (r.withCategory e).category = e := by
  obtain ⟨a, b, c, d, l, x⟩ := r
  rfl

@[simp] theorem FRes.withCategory_withCategory (r : FRes) (e1 e2 : Option (List CatCC)) :
    (r.withCategory e1).withCategory e2 = r.withCategory e2 := by
  obtain ⟨a, b, c, d, l, x⟩ := r
  rfl

@[simp] theorem FRes.entry_withEntry (r : FRes) (e : Option (List (Option FRes))) :
    (r.withEntry e).entry = e := by
  obtain ⟨a, b, c, d, l, x⟩ := r
  rfl

@[simp] theorem FRes.withEntry_withEntry (r : FRes) (e1 e2 : Option (List (Option FRes))) :
    (r.withEntry e1).withEntry e2 = r.withEntry e2 := by
  obtain ⟨a, b, c, d, l, x⟩ := r
  rfl

theorem updateFirstMatching_congr (t : String) (f g : FRes → FRes)
    (h : ∀ x, f x = g x) :
    ∀ entries : List (Option FRes),
      updateFirstMatching t f entries = updateFirstMatching t g entries := by
  intro entries
  induction entries with
  | nil => rfl
  | cons e rest ih =>
    cases e with
    | none => simp only [updateFirstMatching, ih]
    | some x =>
      by_cases hx : (x.resourceType == t) = true
      · simp only [updateFirstMatching, hx, if_true, h x]
      · have hx2 : (x.resourceType == t) = false := by
          cases hb : (x.resourceType == t) with
          | true => exact absurd hb hx
          | false => rfl
        simp only [updateFirstMatching, hx2, Bool.false_eq_true, if_false, ih]

theorem updateFirstResourceByType_congr (r : Option FRes) (t : String) (f g : FRes → FRes)
    (h : ∀ x, f x = g x) :
    updateFirstResourceByType r t f = updateFirstResourceByType r t g := by
  cases r with
  | none => rfl
  | some r =>
    simp only [updateFirstResourceByType]
    split
    · rw [h r]
    · split
      · split
        · rw [updateFirstMatching_congr t f g h]
        · rfl
      · rfl

theorem updateFirstMatching_comp (t : String) (f g : FRes → FRes)
    (hf : ∀ x, (f x).resourceType = x.resourceType) :
    ∀ entries : List (Option FRes),
      updateFirstMatching t g (updateFirstMatching t f entries)
        = updateFirstMatching t (fun x => g (f x)) entries := by
  intro entries
  induction entries with
  | nil => rfl
  | cons e rest ih =>
    cases e with
    | none => simp only [updateFirstMatching, ih]
    | some x =>
      by_cases hx : (x.resourceType == t) = true
      · have hfx : ((f x).resourceType == t) = true := by
          rw [hf x]
          exact hx
        simp only [updateFirstMatching, hx, if_true, hfx]
      · have hx2 : (x.resourceType == t) = false := by
          cases hb : (x.resourceType == t) with
          | true => exact absurd hb hx
          | false => rfl
        simp only [updateFirstMatching, hx2, Bool.false_eq_true, if_false, ih]

theorem updateFirstResourceByType_comp (r : Option FRes) (t : String) (f g : FRes → FRes)
    (hf : ∀ x, (f x).resourceType = x.resourceType) :
    updateFirstResourceByType (updateFirstResourceByType r t f) t g
      = updateFirstResourceByType r t (fun x => g (f x)) := by
  cases r with
  | none => rfl
  | some r =>
    by_cases ht : (r.resourceType == t) = true
    · have hft : ((f r).resourceType == t) = true := by
        rw [hf r]
        exact ht
      simp only [updateFirstResourceByType, ht, if_true, hft]
    · have ht2 : (r.resourceType == t) = false := by
        cases hb : (r.resourceType == t) with
        | true => exact absurd hb ht
        | false => rfl
      by_cases hbundle : (r.resourceType == "Bundle") = true
      · cases hentry : r.entry with
        | none =>
          simp only [updateFirstResourceByType, ht2, Bool.false_eq_true, if_false, hbundle,
            if_true, hentry]
        | some entries =>
          simp only [updateFirstResourceByType, ht2, Bool.false_eq_true, if_false, hbundle,
            if_true, hentry, FRes.resourceType_withEntry, FRes.entry_withEntry,
            FRes.withEntry_withEntry, updateFirstMatching_comp t f g hf entries]
      · have hb2 : (r.resourceType == "Bundle") = false := by
          cases hb : (r.resourceType == "Bundle") with
          | true => exact absurd hb hbundle
          | false => rfl
        simp only [updateFirstResourceByType, ht2, Bool.false_eq_true, if_false, hb2]

theorem setCategoryOnComposition_idem (code display : String) (c : FRes) :
    setCategoryOnComposition code display (setCategoryOnComposition code display c)
      = setCategoryOnComposition code display c := by
  unfold setCategoryOnComposition
  cases hcat : (match c.category with | some l => l | none => []) with
  | nil => simp
  | cons c0 crest =>
    cases hcod : (match c0.coding with | some l => l | none => []) with
    | nil =>
      simp only [hcod]
      simp
    | cons d0 drest =>
      simp only [hcod]
      simp

/-- `setCategoryCode` on a document whose composition exists resolves to the
    functional update. -/
theorem setCategoryCode_eq_ok (epi : Option FRes) (code display : String) (c0 : FRes)
    (hc : findResourceByType epi "Composition" = some c0) :
    setCategoryCode epi code display
      = .ok (updateFirstResourceByType epi "Composition"
          (setCategoryOnComposition code display)) := by
  unfold setCategoryCode
  rw [hc]

theorem epiAtStep_spec (st : PipeState) (c0 : FRes)
    (hc : findResourceByType st.epi "Composition" = some c0) :
    findResourceByType (epiAtStep st) "Composition"
      = some (setCategoryOnComposition "E" "Enhanced" c0) := by
  unfold epiAtStep
  rw [findResourceByType_update _ _ _
    (fun x => (setCategoryOnComposition_fields "E" "Enhanced" x).1), hc]
  rfl

/-- Marking the document enhanced twice is the same as marking it once. -/
theorem setCategoryCode_idem (epi epi1 : Option FRes) (code display : String)
    (h : setCategoryCode epi code display = .ok epi1) :
    setCategoryCode epi1 code display = .ok epi1 := by
  unfold setCategoryCode at h
  cases hc : findResourceByType epi "Composition" with
  | none =>
    rw [hc] at h
    cases h
  | some c =>
    rw [hc] at h
    cases h
    unfold setCategoryCode
    rw [findResourceByType_update _ _ _
      (fun x => (setCategoryOnComposition_fields code display x).1), hc]
    show Except.ok _ = _
    congr 1
    rw [updateFirstResourceByType_comp _ _ _ _
      (fun x => (setCategoryOnComposition_fields code display x).1)]
    exact updateFirstResourceByType_congr _ _ _ _
      (fun x => setCategoryOnComposition_idem code display x)

theorem defaultExplanation_ne_empty (l : String) : defaultExplanation l ≠ "" := by
  unfold defaultExplanation
  split <;> decide

theorem defaultExplanationValue_nonEmpty (l : String) :
    explanationNonEmpty (defaultExplanationValue l) = true := by
  unfold defaultExplanationValue
  split
  · rfl
  · show (defaultExplanation l != "") = true
    simp only [bne_iff_ne, ne_eq]
    exact defaultExplanation_ne_empty l

theorem explanationValueOf_nonEmpty (e : String) (lang : Option String) :
    explanationNonEmpty (explanationValueOf e lang) = true := by
  unfold explanationValueOf
  split
  · exact defaultExplanationValue_nonEmpty _
  · rename_i h
    show (e != "") = true
    simp only [bne_iff_ne, ne_eq]
    intro hx
    exact h (by rw [hx]; rfl)

theorem getlanguage_epiAtStep (st : PipeState) (c0 : FRes)
    (hc : findResourceByType st.epi "Composition" = some c0) :
    getlanguage (epiAtStep st) = .ok (compLanguage st.epi) := by
  unfold getlanguage compLanguage
  rw [epiAtStep_spec st c0 hc, hc]
  dsimp only
  rw [(setCategoryOnComposition_fields "E" "Enhanced" c0).2.2.1]

theorem getExtensions_epiAtStep (st : PipeState) (c0 : FRes)
    (hc : findResourceByType st.epi "Composition" = some c0) :
    getExtensions (epiAtStep st) = .ok (compExtensions st.epi) := by
  unfold getExtensions compExtensions
  rw [epiAtStep_spec st c0 hc, hc]
  dsimp only
  rw [(setCategoryOnComposition_fields "E" "Enhanced" c0).2.1]

theorem setExtensions_epiAtStep (st : PipeState) (c0 : FRes) (exts : List Ext)
    (hc : findResourceByType st.epi "Composition" = some c0) :
    setExtensions (epiAtStep st) exts
      = .ok (updateFirstResourceByType (epiAtStep st) "Composition"
          (fun c => c.withExtensionL (some exts))) := by
  unfold setExtensions
  rw [epiAtStep_spec st c0 hc]

theorem compExtensions_epiAtStep (st : PipeState) (c0 : FRes)
    (hc : findResourceByType st.epi "Composition" = some c0) :
    compExtensions (epiAtStep st) = compExtensions st.epi := by
  unfold compExtensions
  rw [epiAtStep_spec st c0 hc, hc]
  dsimp only
  rw [(setCategoryOnComposition_fields "E" "Enhanced" c0).2.1]

theorem compSectionL_def (epi : Option FRes) (c0 : FRes)
    (hc : findResourceByType epi "Composition" = some c0) :
    compSectionL epi = c0.sectionL := by
  unfold compSectionL
  rw [hc]

/-- A failing lens application leaves the loop state unchanged apart from the
    enhanced marking and the recorded error list. -/
theorem lensStep_failure (dec : DecodeFn) (exec : ExecOracle) (ips : Option FRes)
    (config : LensExecutionConfig) (st : PipeState) (lens : Option LensDef) (c0 : FRes)
    (hc : findResourceByType st.epi "Composition" = some c0)
    (hfail : (appAt dec exec ips config st lens).focusingErrors ≠ []) :
    lensStep dec exec ips config st lens
      = .ok ⟨epiAtStep st, st.sections,
             st.errors ++ [(appAt dec exec ips config st lens).focusingErrors]⟩ := by
  have hlen : ((appAt dec exec ips config st lens).focusingErrors.length == 0) = false := by
    cases hfe : (appAt dec exec ips config st lens).focusingErrors with
    | nil => exact absurd hfe hfail
    | cons a as => rfl
  unfold lensStep
  rw [setCategoryCode_eq_ok st.epi "E" "Enhanced" c0 hc]
  show (do
    let epiLanguage ← getlanguage (epiAtStep st)
    let lensApplication := applyLensToSections dec exec lens st.sections (epiAtStep st) ips config
    let errors := st.errors ++ [lensApplication.focusingErrors]
    if lensApplication.focusingErrors.length == 0 then
      let explanationText := explanationValueOf lensApplication.explanation epiLanguage
      if explanationNonEmpty explanationText then
        let epiExtensions ← getExtensions (epiAtStep st)
        let epi2 ← setExtensions (epiAtStep st)
          (epiExtensions ++ [mkLensesAppliedExt
            (jsStringOfIdentifier (getLensIdenfier lens)) explanationText])
        pure (⟨epi2, lensApplication.leafletSectionList, errors⟩ : PipeState)
      else
        let epi2 ← setExtensions (epiAtStep st) []
        pure (⟨epi2, lensApplication.leafletSectionList, errors⟩ : PipeState)
    else
      pure (⟨epiAtStep st, st.sections, errors⟩ : PipeState)) = _
  rw [getlanguage_epiAtStep st c0 hc]
  show (if ((appAt dec exec ips config st lens).focusingErrors.length == 0) = true then _ else _)
    = _
  rw [hlen]
  simp only [Bool.false_eq_true, if_false]
  rfl

/-- A successful lens application advances the sections to the reconciled
    list, records an empty error list, and appends the LensesApplied
    extension. -/
theorem lensStep_success (dec : DecodeFn) (exec : ExecOracle) (ips : Option FRes)
    (config : LensExecutionConfig) (st : PipeState) (lens : Option LensDef) (c0 : FRes)
    (hc : findResourceByType st.epi "Composition" = some c0)
    (hok : (appAt dec exec ips config st lens).focusingErrors = []) :
    lensStep dec exec ips config st lens
      = .ok ⟨updateFirstResourceByType (epiAtStep st) "Composition"
               (fun c => c.withExtensionL (some (compExtensions st.epi
                  ++ [mkLensesAppliedExt (jsStringOfIdentifier (getLensIdenfier lens))
                        (explanationValueOf (appAt dec exec ips config st lens).explanation
                          (compLanguage st.epi))]))),
             (appAt dec exec ips config st lens).leafletSectionList,
             st.errors ++ [[]]⟩ := by
  have hlen : ((appAt dec exec ips config st lens).focusingErrors.length == 0) = true := by
    rw [hok]
    rfl
  have hexp : explanationNonEmpty (explanationValueOf
      (appAt dec exec ips config st lens).explanation (compLanguage st.epi)) = true :=
    explanationValueOf_nonEmpty _ _
  unfold lensStep
  rw [setCategoryCode_eq_ok st.epi "E" "Enhanced" c0 hc]
  show (do
    let epiLanguage ← getlanguage (epiAtStep st)
    let lensApplication := applyLensToSections dec exec lens st.sections (epiAtStep st) ips config
    let errors := st.errors ++ [lensApplication.focusingErrors]
    if lensApplication.focusingErrors.length == 0 then
      let explanationText := explanationValueOf lensApplication.explanation epiLanguage
      if explanationNonEmpty explanationText then
        let epiExtensions ← getExtensions (epiAtStep st)
        let epi2 ← setExtensions (epiAtStep st)
          (epiExtensions ++ [mkLensesAppliedExt
            (jsStringOfIdentifier (getLensIdenfier lens)) explanationText])
        pure (⟨epi2, lensApplication.leafletSectionList, errors⟩ : PipeState)
      else
        let epi2 ← setExtensions (epiAtStep st) []
        pure (⟨epi2, lensApplication.leafletSectionList, errors⟩ : PipeState)
    else
      pure (⟨epiAtStep st, st.sections, errors⟩ : PipeState)) = _
  rw [getlanguage_epiAtStep st c0 hc]
  show (if ((appAt dec exec ips config st lens).focusingErrors.length == 0) = true then _ else _)
    = _
  rw [hlen]
  simp only [if_true]
  show (if explanationNonEmpty (explanationValueOf
      (appAt dec exec ips config st lens).explanation (compLanguage st.epi)) = true
    then _ else _) = _
  rw [hexp]
  simp only [if_true]
  rw [getExtensions_epiAtStep st c0 hc]
  show (do
    let epi2 ← setExtensions (epiAtStep st)
      (compExtensions st.epi ++ [mkLensesAppliedExt
        (jsStringOfIdentifier (getLensIdenfier lens))
        (explanationValueOf (appAt dec exec ips config st lens).explanation
          (compLanguage st.epi))])
    pure (⟨epi2, (appAt dec exec ips config st lens).leafletSectionList,
      st.errors ++ [(appAt dec exec ips config st lens).focusingErrors]⟩ : PipeState)) = _
  rw [setExtensions_epiAtStep st c0 _ hc]
  show Except.ok _ = _
  rw [hok]

theorem compExtensions_after_setExts (X : Option FRes) (cX : FRes) (E : List Ext)
    (hcX : findResourceByType X "Composition" = some cX) :
    compExtensions (updateFirstResourceByType X "Composition"
        (fun c => c.withExtensionL (some E))) = E := by
  unfold compExtensions
  rw [findResourceByType_update _ _ _ (fun x => FRes.resourceType_withExtensionL x (some E)),
    hcX]
  simp

theorem compSectionL_after_setExts (X : Option FRes) (cX : FRes) (E : List Ext)
    (hcX : findResourceByType X "Composition" = some cX) :
    compSectionL (updateFirstResourceByType X "Composition"
        (fun c => c.withExtensionL (some E))) = cX.sectionL := by
  unfold compSectionL
  rw [findResourceByType_update _ _ _ (fun x => FRes.resourceType_withExtensionL x (some E)),
    hcX]
  simp

theorem compSectionL_epiAtStep (st : PipeState) (c0 : FRes)
    (hc : findResourceByType st.epi "Composition" = some c0) :
    compSectionL (epiAtStep st) = c0.sectionL := by
  unfold compSectionL
  rw [epiAtStep_spec st c0 hc]
  dsimp only
  rw [(setCategoryOnComposition_fields "E" "Enhanced" c0).2.2.2]

/-- C9 counterexample: the `in` operator consults the prototype chain, so the
    document language "toString" — outside the supported set — passes the
    `in defaultExplanation` check through the inherited `Object.prototype`
    member and is kept rather than mapped to the English default; a
    successful lens application on such a document appends an extension
    carrying the inherited member, not a default explanation string. -/
theorem inherited_language_not_mapped_to_english :
    validLanguage (some "toString") = "toString" ∧
    "toString" ∉ supportedLanguages ∧
    compExtensions pipeTs1.epi
      = compExtensions pipeTs0.epi
        ++ [mkLensesAppliedExt "lens-4" (.inherited "toString")] ∧
    (∀ l ∈ supportedLanguages,
      ExplanationValue.inherited "toString" ≠ .str (defaultExplanation l)) := by
  refine ⟨rfl, by decide, ?_, by decide⟩
  rfl

/-- C9 (amended): on every successful lens application over a document whose
    composition root exists, exactly one LensesApplied extension object is
    appended to the composition's extension list and every previously present
    extension is preserved; the branch that would replace the extension list
    with an empty array is unreachable, because the looked-up explanation
    value always passes the non-emptiness guard — it is the lens's own
    non-empty explanation, one of the four non-empty default strings, or an
    inherited `Object.prototype` member, which coerces to a non-empty
    primitive.  A document language outside the supported set is mapped to
    the English default only when it also names no inherited
    `Object.prototype` property. -/
theorem lensStep_appends_exactly_one_extension
    (dec : DecodeFn) (exec : ExecOracle) (ips : Option FRes) (config : LensExecutionConfig)
    (st st2 : PipeState) (lens : Option LensDef) (c0 : FRes)
    (hc : findResourceByType st.epi "Composition" = some c0)
    (hok : (appAt dec exec ips config st lens).focusingErrors = [])
    (hstep : lensStep dec exec ips config st lens = .ok st2) :
    compExtensions st2.epi
      = compExtensions st.epi
        ++ [mkLensesAppliedExt (jsStringOfIdentifier (getLensIdenfier lens))
              (explanationValueOf (appAt dec exec ips config st lens).explanation
                (compLanguage st.epi))] ∧
    explanationNonEmpty (explanationValueOf (appAt dec exec ips config st lens).explanation
      (compLanguage st.epi)) = true ∧
    (∀ lng : String, lng ∉ supportedLanguages → lng ∉ objectPrototypeKeys →
      validLanguage (some lng) = "en") := by
  rw [lensStep_success dec exec ips config st lens c0 hc hok] at hstep
  cases hstep
  refine ⟨?_, explanationValueOf_nonEmpty _ _, ?_⟩
  · exact compExtensions_after_setExts (epiAtStep st) _ _ (epiAtStep_spec st c0 hc)
  · intro lng hmem hproto
    have hcont : supportedLanguages.contains lng = false := by
      cases hb : supportedLanguages.contains lng with
      | false => rfl
      | true => exact absurd (List.mem_of_elem_eq_true hb) hmem
    have hcont2 : objectPrototypeKeys.contains lng = false := by
      cases hb : objectPrototypeKeys.contains lng with
      | false => rfl
      | true => exact absurd (List.mem_of_elem_eq_true hb) hproto
    show (if (supportedLanguages.contains lng || objectPrototypeKeys.contains lng) = true
      then lng else "en") = "en"
    rw [hcont, hcont2]
    rfl

/-- Witness for the amended C9 theorem at concrete inputs with the supported
    language "es" and the unsupported, non-inherited language "fr". -/
theorem lensStep_appends_exactly_one_extension_witness :
    compExtensions pipeSt1.epi
      = compExtensions pipeSt0.epi
        ++ [mkLensesAppliedExt "lens-4" (.str (defaultExplanation "es"))] ∧
    validLanguage (some "fr") = "en" := by
  have h := lensStep_appends_exactly_one_extension decFixed execIdentity none getDefaultConfig
    pipeSt0 pipeSt1 (some lensInlineNamed) compositionEs rfl (by decide) rfl
  exact ⟨h.1, h.2.2 "fr" (by decide) (by decide)⟩

/-- Inversion of one successful loop iteration: exactly one error list is
    appended, and it is empty exactly when one extension was appended. -/
theorem lensStep_ok_inv (dec : DecodeFn) (exec : ExecOracle) (ips : Option FRes)
    (config : LensExecutionConfig) (st : PipeState) (lens : Option LensDef) (st2 : PipeState)
    (h : lensStep dec exec ips config st lens = .ok st2) :
    st2.errors = st.errors ++ [stepErrors dec exec ips config st lens] ∧
    (stepErrors dec exec ips config st lens = [] ↔
      ∃ e, compExtensions st2.epi = compExtensions st.epi ++ [e]) := by
  cases hc : findResourceByType st.epi "Composition" with
  | none =>
    have herr : lensStep dec exec ips config st lens
        = .error "TypeError: Cannot read properties of null (reading category)" := by
      unfold lensStep setCategoryCode
      rw [hc]
      rfl
    rw [herr] at h
    cases h
  | some c0 =>
    by_cases he : stepErrors dec exec ips config st lens = []
    · rw [lensStep_success dec exec ips config st lens c0 hc he] at h
      cases h
      refine ⟨?_, ?_, fun _ => he⟩
      · show st.errors ++ [[]] = st.errors ++ [stepErrors dec exec ips config st lens]
        rw [he]
      · intro _
        exact ⟨_, compExtensions_after_setExts (epiAtStep st) _ _ (epiAtStep_spec st c0 hc)⟩
    · rw [lensStep_failure dec exec ips config st lens c0 hc he] at h
      cases h
      refine ⟨rfl, fun h0 => absurd h0 he, ?_⟩
      intro hex
      obtain ⟨e, hext⟩ := hex
      show stepErrors dec exec ips config st lens = []
      rw [compExtensions_epiAtStep st c0 hc] at hext
      exact absurd hext (by simp)

theorem runTrajectory_spec (dec : DecodeFn) (exec : ExecOracle) (ips : Option FRes)
    (config : LensExecutionConfig) :
    ∀ (lenses : List (Option LensDef)) (st stF : PipeState),
      List.foldlM (lensStep dec exec ips config) st lenses = .ok stF →
      ∃ sts : List PipeState,
        runTrajectory dec exec ips config st lenses = some sts ∧
        sts.get? 0 = some st ∧
        sts.length = lenses.length + 1 ∧
        sts.get? lenses.length = some stF ∧
        (∃ t, stF.errors = st.errors ++ t) ∧
        stF.errors.length = st.errors.length + lenses.length ∧
        (∀ i, i < lenses.length →
          ∃ a b lens, sts.get? i = some a ∧ sts.get? (i + 1) = some b ∧
            lenses.get? i = some lens ∧ lensStep dec exec ips config a lens = .ok b ∧
            stF.errors.get? (st.errors.length + i)
              = some (stepErrors dec exec ips config a lens)) := by
  intro lenses
  induction lenses with
  | nil =>
    intro st stF h
    have hst : stF = st := by
      simp only [List.foldlM] at h
      cases h
      rfl
    subst hst
    exact ⟨[stF], rfl, rfl, rfl, rfl, ⟨[], by simp⟩, by simp, fun i hi => absurd hi (by simp)⟩
  | cons lens rest ih =>
    intro st stF h
    cases hstep : lensStep dec exec ips config st lens with
    | error e =>
      simp only [List.foldlM, hstep, bind, Except.bind] at h
      exact Except.noConfusion h
    | ok st2 =>
      simp only [List.foldlM, hstep, bind, Except.bind] at h
      obtain ⟨sts2, htraj, hget0, hlen, hgetN, ⟨t2, happ⟩, herrlen, hidx⟩ := ih st2 stF h
      have hinv := lensStep_ok_inv dec exec ips config st lens st2 hstep
      refine ⟨st :: sts2, ?_, rfl, ?_, ?_, ?_, ?_, ?_⟩
      · show (match lensStep dec exec ips config st lens with
          | .ok st2 => (runTrajectory dec exec ips config st2 rest).map (fun sts => st :: sts)
          | .error _ => none) = some (st :: sts2)
        rw [hstep]
        dsimp only
        rw [htraj]
        rfl
      · simp [hlen]
      · simpa using hgetN
      · exact ⟨[stepErrors dec exec ips config st lens] ++ t2,
          by rw [happ, hinv.1, List.append_assoc]⟩
      · rw [herrlen, hinv.1]
        simp
        omega
      · intro i hi
        cases i with
        | zero =>
          refine ⟨st, st2, lens, rfl, by simpa using hget0, rfl, hstep, ?_⟩
          rw [happ, hinv.1, Nat.add_zero]
          rw [List.get?_append (by simp)]
          exact List.get?_concat_length _ _
        | succ j =>
          have hj : j < rest.length := by
            simp only [List.length_cons] at hi
            omega
          obtain ⟨a, b, lens2, ha, hb, hl, hstep2, herr⟩ := hidx j hj
          refine ⟨a, b, lens2, by simpa using ha, by simpa using hb, by simpa using hl,
            hstep2, ?_⟩
          rw [hinv.1] at herr
          have harith : st.errors.length + (j + 1)
              = (st.errors ++ [stepErrors dec exec ips config st lens]).length + j := by
            simp
            omega
          rw [harith]
          exact herr

/-- C6: for every document and every list of N lenses, a normally-returning
    `applyLenses` call yields `focusingErrors` with exactly N entries; entry i
    is the error list produced for lens i at the i-th loop state (input
    order, regardless of the mix of successes and failures), and entry i is
    empty exactly when lens i succeeded (observable as exactly one extension
    being appended at step i). -/
theorem applyLenses_error_report_order
    (dec : DecodeFn) (exec : ExecOracle) (epi ips : Option FRes)
    (lenses : List (Option LensDef)) (config : LensExecutionConfig) (res : ApplyLensesResult)
    (h : applyLenses dec exec epi ips lenses config = .ok res) :
    res.focusingErrors.length = lenses.length ∧
    (∃ sts : List PipeState,
      runTrajectory dec exec ips config ⟨epi, getLeaflet epi, []⟩ lenses = some sts ∧
      ∀ i, i < lenses.length →
        ∃ a b lens, sts.get? i = some a ∧ sts.get? (i + 1) = some b ∧
          lenses.get? i = some lens ∧
          lensStep dec exec ips config a lens = .ok b ∧
          res.focusingErrors.get? i = some (stepErrors dec exec ips config a lens) ∧
          (stepErrors dec exec ips config a lens = [] ↔
            ∃ e, compExtensions b.epi = compExtensions a.epi ++ [e])) := by
  cases hF : List.foldlM (lensStep dec exec ips config) ⟨epi, getLeaflet epi, []⟩ lenses with
  | error e =>
    unfold applyLenses at h
    simp only [hF, bind, Except.bind] at h
    exact Except.noConfusion h
  | ok stF =>
    unfold applyLenses at h
    simp only [hF, bind, Except.bind, pure, Except.pure] at h
    cases h
    obtain ⟨sts, htraj, hget0, hlen, hgetN, hext, herrlen, hidx⟩ :=
      runTrajectory_spec dec exec ips config lenses ⟨epi, getLeaflet epi, []⟩ stF hF
    refine ⟨by simpa using herrlen, sts, htraj, ?_⟩
    intro i hi
    obtain ⟨a, b, lens, ha, hb, hl, hstep, herr⟩ := hidx i hi
    have hinv := lensStep_ok_inv dec exec ips config a lens b hstep
    exact ⟨a, b, lens, ha, hb, hl, hstep, by simpa using herr, hinv.2⟩

/-- Witness for C6 at a concrete two-lens run. -/
theorem applyLenses_error_report_order_witness :
    res6.focusingErrors.length = 2 ∧ res6.focusingErrors.get? 1 = some [] := by
  have h := applyLenses_error_report_order decFixed execIdentity epiBundleEs none
    [some lensNoContent, some lensInlineNamed] getDefaultConfig res6 rfl
  exact ⟨h.1, rfl⟩

/-! ## Write/read coherence of the leaflet slot (C1) -/

@[simp] theorem Section.sub_withSub (s : Section) (x : Option (List Section)) :
    (s.withSub x).sub = x := by
  obtain ⟨a, b, c, d, e⟩ := s
  rfl

theorem findIdx?_ge_start (p : Section → Bool) :
    ∀ (l : List Section) (j m : Nat), List.findIdx? p l j = some m → j ≤ m := by
  intro l
  induction l with
  | nil =>
    intro j m h
    simp [List.findIdx?] at h
  | cons a rest ih =>
    intro j m h
    rw [List.findIdx?_cons] at h
    by_cases hp : p a = true
    · rw [if_pos hp] at h
      cases h
      exact Nat.le_refl _
    · rw [if_neg hp] at h
      have := ih (j + 1) m h
      omega

theorem find?_setSubAt (L : List Section) :
    ∀ (secs : List Section) (j i : Nat),
      List.findIdx? (fun s => s.sub.isSome) secs j = some (j + i) →
      ∃ s, (setSubAt secs i (some L)).find? (fun s => s.sub.isSome) = some s ∧
        s.sub = some L := by
  intro secs
  induction secs with
  | nil =>
    intro j i h
    simp [List.findIdx?] at h
  | cons s rest ih =>
    intro j i h
    rw [List.findIdx?_cons] at h
    by_cases hp : (s.sub.isSome) = true
    · rw [if_pos hp] at h
      have hi : i = 0 := by
        have hj := Option.some.inj h
        omega
      subst hi
      refine ⟨s.withSub (some L), ?_, by simp⟩
      show List.find? (fun s => s.sub.isSome) (s.withSub (some L) :: rest) = _
      rw [List.find?_cons]
      simp
    · rw [if_neg hp] at h
      have hge := findIdx?_ge_start (fun s => s.sub.isSome) rest (j + 1) (j + i) h
      have hi : ∃ k, i = k + 1 := by
        cases i with
        | zero => omega
        | succ k => exact ⟨k, rfl⟩
      obtain ⟨k, rfl⟩ := hi
      have harith : j + (k + 1) = (j + 1) + k := by omega
      rw [harith] at h
      obtain ⟨x, hx, hsub⟩ := ih (j + 1) k h
      refine ⟨x, ?_, hsub⟩
      show List.find? (fun s => s.sub.isSome) (s :: setSubAt rest k (some L)) = some x
      rw [List.find?_cons]
      simp only [hp]
      exact hx

theorem writeLeafletOnComposition_fields (L : Option (List Section)) (c : FRes) :
    (writeLeafletOnComposition L c).resourceType = c.resourceType ∧
    (writeLeafletOnComposition L c).extensionL = c.extensionL := by
  unfold writeLeafletOnComposition
  repeat' split
  all_goals simp

/-- Reading the leaflet back after `writeLeaflet` returns exactly what was
    written, provided the composition exists and its section list is
    non-empty. -/
theorem getLeaflet_writeLeaflet (X : Option FRes) (cX : FRes) (secsX L : List Section)
    (hcX : findResourceByType X "Composition" = some cX)
    (hsecs : cX.sectionL = some secsX)
    (hne : secsX ≠ []) :
    getLeaflet (writeLeaflet X (some L)) = some L := by
  unfold writeLeaflet
  rw [hcX]
  unfold getLeaflet
  rw [findResourceByType_update _ _ _
    (fun x => (writeLeafletOnComposition_fields (some L) x).1), hcX]
  simp only [Option.map]
  unfold writeLeafletOnComposition
  rw [hsecs]
  dsimp only
  cases hidx : List.findIdx? (fun s => s.sub.isSome) secsX 0 with
  | some i =>
    dsimp only
    rw [FRes.sectionL_withSectionL]
    dsimp only
    have h0 : List.findIdx? (fun s => s.sub.isSome) secsX 0 = some (0 + i) := by
      rw [hidx]
      rw [Nat.zero_add]
    obtain ⟨s, hfind, hsub⟩ := find?_setSubAt L secsX 0 i h0
    rw [hfind]
    dsimp only
    exact hsub
  | none =>
    cases secsX with
    | nil => exact absurd rfl hne
    | cons s0 rest =>
      dsimp only
      rw [FRes.sectionL_withSectionL]
      dsimp only
      rw [List.find?_cons]
      simp

/-- `getLeaflet_writeLeaflet`, phrased on the `compSectionL` observable. -/
theorem getLeaflet_writeLeaflet2 (X : Option FRes) (secsX L : List Section)
    (hsecs : compSectionL X = some secsX) (hne : secsX ≠ []) :
    getLeaflet (writeLeaflet X (some L)) = some L := by
  cases hcX : findResourceByType X "Composition" with
  | none =>
    unfold compSectionL at hsecs
    rw [hcX] at hsecs
    cases hsecs
  | some cX =>
    have hx : cX.sectionL = some secsX := by
      unfold compSectionL at hsecs
      rw [hcX] at hsecs
      exact hsecs
    exact getLeaflet_writeLeaflet X cX secsX L hcX hx hne

theorem compExtensions_writeLeaflet (X : Option FRes) (L : Option (List Section)) :
    compExtensions (writeLeaflet X L) = compExtensions X := by
  unfold writeLeaflet
  cases hcX : findResourceByType X "Composition" with
  | none => rfl
  | some cX =>
    unfold compExtensions
    rw [findResourceByType_update _ _ _
      (fun x => (writeLeafletOnComposition_fields L x).1), hcX]
    simp only [Option.map]
    rw [(writeLeafletOnComposition_fields L cX).2]

/-- Marking the document enhanced a second time changes nothing. -/
theorem epiAtStep_idem (epi : Option FRes) :
    updateFirstResourceByType (updateFirstResourceByType epi "Composition"
        (setCategoryOnComposition "E" "Enhanced")) "Composition"
      (setCategoryOnComposition "E" "Enhanced")
      = updateFirstResourceByType epi "Composition"
          (setCategoryOnComposition "E" "Enhanced") := by
  rw [updateFirstResourceByType_comp _ _ _ _
    (fun x => (setCategoryOnComposition_fields "E" "Enhanced" x).1)]
  exact updateFirstResourceByType_congr _ _ _ _
    (fun x => setCategoryOnComposition_idem "E" "Enhanced" x)

/-- A lens application either records an error or returns some section list. -/
theorem applyLensToSections_errors_or_some (dec : DecodeFn) (exec : ExecOracle)
    (lens : Option LensDef) (sections : Option (List Section)) (epi ips : Option FRes)
    (config : LensExecutionConfig) :
    (applyLensToSections dec exec lens sections epi ips config).focusingErrors ≠ [] ∨
    ∃ L, (applyLensToSections dec exec lens sections epi ips config).leafletSectionList
      = some L := by
  unfold applyLensToSections
  dsimp only
  repeat' split
  all_goals simp

/-- The lens application performed at a state whose document was already
    marked enhanced is the same as at the unmarked state: marking is
    idempotent and the error accumulator is not consulted. -/
theorem appAt_epiAtStep (dec : DecodeFn) (exec : ExecOracle) (ips : Option FRes)
    (config : LensExecutionConfig) (st : PipeState) (E : List (List FocusingError))
    (lens : Option LensDef) :
    appAt dec exec ips config ⟨epiAtStep st, st.sections, E⟩ lens
      = appAt dec exec ips config st lens := by
  unfold appAt epiAtStep
  dsimp only
  rw [epiAtStep_idem]

/-- C1: isolation of failure — with a locatable composition root, a first lens
    whose application fails does not prevent a later well-formed lens from
    succeeding; on the failure the section list is not advanced and no
    explanation extension is appended for it (the second lens is applied to
    the very section list the first one saw, and exactly one extension — the
    second lens's — is appended over the whole run), the error report is the
    failure's list followed by an empty list, and the returned document's
    leaflet is the second lens's transformation. -/
theorem applyLenses_isolates_failure
    (dec : DecodeFn) (exec : ExecOracle) (epi ips : Option FRes)
    (config : LensExecutionConfig) (l1 l2 : Option LensDef) (c0 : FRes) (secs : List Section)
    (res : ApplyLensesResult)
    (hc : findResourceByType epi "Composition" = some c0)
    (hsecs : c0.sectionL = some secs)
    (hne : secs ≠ [])
    (hfail : (appAt dec exec ips config ⟨epi, getLeaflet epi, []⟩ l1).focusingErrors ≠ [])
    (hok : (appAt dec exec ips config ⟨epi, getLeaflet epi, []⟩ l2).focusingErrors = [])
    (hres : applyLenses dec exec epi ips [l1, l2] config = .ok res) :
    res.focusingErrors
      = [(appAt dec exec ips config ⟨epi, getLeaflet epi, []⟩ l1).focusingErrors, []] ∧
    (∃ L, (appAt dec exec ips config ⟨epi, getLeaflet epi, []⟩ l2).leafletSectionList = some L ∧
      getLeaflet res.epi = some L) ∧
    (∃ e, compExtensions res.epi = compExtensions epi ++ [e]) := by
  obtain ⟨L, hL⟩ :=
    (applyLensToSections_errors_or_some dec exec l2 (getLeaflet epi)
      (epiAtStep ⟨epi, getLeaflet epi, []⟩) ips config).resolve_left (by exact fun h => h hok)
  have hstep1 := lensStep_failure dec exec ips config ⟨epi, getLeaflet epi, []⟩ l1 c0 hc hfail
  have hc1 : findResourceByType (epiAtStep ⟨epi, getLeaflet epi, []⟩) "Composition"
      = some (setCategoryOnComposition "E" "Enhanced" c0) :=
    epiAtStep_spec ⟨epi, getLeaflet epi, []⟩ c0 hc
  have hok1 : (appAt dec exec ips config
      ⟨epiAtStep ⟨epi, getLeaflet epi, []⟩, getLeaflet epi,
        [(appAt dec exec ips config ⟨epi, getLeaflet epi, []⟩ l1).focusingErrors]⟩
      l2).focusingErrors = [] := by
    rw [show (⟨epiAtStep ⟨epi, getLeaflet epi, []⟩, getLeaflet epi,
        [(appAt dec exec ips config ⟨epi, getLeaflet epi, []⟩ l1).focusingErrors]⟩ : PipeState)
      = ⟨epiAtStep ⟨epi, getLeaflet epi, []⟩,
          (⟨epi, getLeaflet epi, []⟩ : PipeState).sections,
          [(appAt dec exec ips config ⟨epi, getLeaflet epi, []⟩ l1).focusingErrors]⟩ from rfl]
    rw [appAt_epiAtStep]
    exact hok
  have hstep2 := lensStep_success dec exec ips config
    ⟨epiAtStep ⟨epi, getLeaflet epi, []⟩, getLeaflet epi,
      [(appAt dec exec ips config ⟨epi, getLeaflet epi, []⟩ l1).focusingErrors]⟩
    l2 (setCategoryOnComposition "E" "Enhanced" c0) hc1 hok1
  have hfold : List.foldlM (lensStep dec exec ips config) ⟨epi, getLeaflet epi, []⟩ [l1, l2]
      = lensStep dec exec ips config
          ⟨epiAtStep ⟨epi, getLeaflet epi, []⟩, getLeaflet epi,
            [(appAt dec exec ips config ⟨epi, getLeaflet epi, []⟩ l1).focusingErrors]⟩ l2 := by
    show (do
      let s1 ← lensStep dec exec ips config ⟨epi, getLeaflet epi, []⟩ l1
      let s2 ← lensStep dec exec ips config s1 l2
      pure s2) = _
    rw [hstep1]
    show (do
      let s2 ← lensStep dec exec ips config
        ⟨epiAtStep ⟨epi, getLeaflet epi, []⟩, getLeaflet epi,
          [(appAt dec exec ips config ⟨epi, getLeaflet epi, []⟩ l1).focusingErrors]⟩ l2
      pure s2) = _
    rw [hstep2]
    rfl
  rw [hstep2] at hfold
  unfold applyLenses at hres
  rw [hfold] at hres
  simp only [bind, Except.bind, pure, Except.pure] at hres
  cases hres
  have hfind2 : findResourceByType (epiAtStep
      (⟨epiAtStep ⟨epi, getLeaflet epi, []⟩, getLeaflet epi,
        [(appAt dec exec ips config ⟨epi, getLeaflet epi, []⟩ l1).focusingErrors]⟩ :
          PipeState)) "Composition"
      = some (setCategoryOnComposition "E" "Enhanced" c0) := by
    show findResourceByType (updateFirstResourceByType
      (epiAtStep ⟨epi, getLeaflet epi, []⟩) "Composition"
      (setCategoryOnComposition "E" "Enhanced")) "Composition" = _
    unfold epiAtStep
    dsimp only
    rw [epiAtStep_idem]
    exact hc1
  refine ⟨rfl, ⟨L, hL, ?_⟩, ?_⟩
  · show getLeaflet (writeLeaflet _ _) = some L
    have hsect : (appAt dec exec ips config
        ⟨epiAtStep ⟨epi, getLeaflet epi, []⟩, getLeaflet epi,
          [(appAt dec exec ips config ⟨epi, getLeaflet epi, []⟩ l1).focusingErrors]⟩
        l2).leafletSectionList = some L := by
      rw [show (⟨epiAtStep ⟨epi, getLeaflet epi, []⟩, getLeaflet epi,
          [(appAt dec exec ips config ⟨epi, getLeaflet epi, []⟩ l1).focusingErrors]⟩ : PipeState)
        = ⟨epiAtStep ⟨epi, getLeaflet epi, []⟩,
            (⟨epi, getLeaflet epi, []⟩ : PipeState).sections,
            [(appAt dec exec ips config ⟨epi, getLeaflet epi, []⟩ l1).focusingErrors]⟩ from rfl]
      rw [appAt_epiAtStep]
      exact hL
    rw [hsect]
    refine getLeaflet_writeLeaflet2 _ secs L ?_ hne
    rw [compSectionL_after_setExts _ _ _ hfind2,
      (setCategoryOnComposition_fields "E" "Enhanced" c0).2.2.2]
    exact hsecs
  · show ∃ e, compExtensions (writeLeaflet _ _) = compExtensions epi ++ [e]
    rw [compExtensions_writeLeaflet]
    rw [compExtensions_after_setExts _ _ _ hfind2]
    have hext1 : compExtensions (epiAtStep ⟨epi, getLeaflet epi, []⟩) = compExtensions epi :=
      compExtensions_epiAtStep ⟨epi, getLeaflet epi, []⟩ c0 hc
    rw [show compExtensions
        ((⟨epiAtStep ⟨epi, getLeaflet epi, []⟩, getLeaflet epi,
          [(appAt dec exec ips config ⟨epi, getLeaflet epi, []⟩ l1).focusingErrors]⟩ :
            PipeState)).epi = compExtensions (epiAtStep ⟨epi, getLeaflet epi, []⟩) from rfl]
    rw [hext1]
    exact ⟨_, rfl⟩

/-- Witness for C1: on `epiBundleEs`, the payload-less lens `lensNoContent`
    fails, and the valid lens `lensInlineNamed` that follows it still succeeds
    and its result is what the returned document carries. -/
theorem applyLenses_isolates_failure_witness :
    res6.focusingErrors
        = [(appAt decFixed execIdentity none getDefaultConfig
            ⟨epiBundleEs, getLeaflet epiBundleEs, []⟩ (some lensNoContent)).focusingErrors, []] ∧
      (∃ L, (appAt decFixed execIdentity none getDefaultConfig
          ⟨epiBundleEs, getLeaflet epiBundleEs, []⟩
          (some lensInlineNamed)).leafletSectionList = some L ∧
        getLeaflet res6.epi = some L) ∧
      (∃ e, compExtensions res6.epi = compExtensions epiBundleEs ++ [e]) :=
  applyLenses_isolates_failure decFixed execIdentity epiBundleEs none getDefaultConfig
    (some lensNoContent) (some lensInlineNamed) compositionEs [leafletSlotSection] res6
    rfl rfl (List.cons_ne_nil _ _) (by decide) (by decide) rfl

end LEE

